import Mathlib

/-!
Verification of the newtmgr transport/protocol core.

Shallow embedding of three source files of the repository:

* `vendor/github.com/runtimeco/go-coap/message.go` — the CoAP option/payload
  codec (option registry, integer encoding, option-header delta/length
  encoding with nibble extensions, option/payload parsing).
* `nmxact/nmserial/serial_xport.go` — the serial frame transport (checksum +
  length framing, base64 text encoding, burst chunking with start/continuation
  markers, line-oriented receive and packet reassembly).
* `nmxact/mtech_lora/mtech_lora_sesn.go` — the LoRa fragmentation transport
  (`sendFragments`).

Go bytes are modelled as `Nat` (values `< 256` on real byte strings); Go
`uint16`/`uint32` conversions are modelled with explicit `% 65536` / `% 2^32`;
Go `panic`/`error` results are modelled with `Option`/`Except`.  Functions of
the repository that the source loops over with mutable state are written as
structural recursions; where a recursion consumes a variable number of bytes
per step, an explicit fuel argument (always instantiated with the input
length, which over-approximates the number of iterations because every
iteration consumes at least one byte) keeps the definitions computable by
kernel reduction.
-/

/-- Equality of `Except` results is decidable when both components' is; used
to evaluate concrete encode/decode runs inside proofs. -/
instance {ε α : Type} [DecidableEq ε] [DecidableEq α] : DecidableEq (Except ε α)
  | .error e1, .error e2 =>
    if h : e1 = e2 then isTrue (by rw [h]) else isFalse (by intro hc; cases hc; exact h rfl)
  | .error _, .ok _ => isFalse (by intro hc; cases hc)
  | .ok _, .error _ => isFalse (by intro hc; cases hc)
  | .ok a1, .ok a2 =>
    if h : a1 = a2 then isTrue (by rw [h]) else isFalse (by intro hc; cases hc; exact h rfl)

namespace Coap

/-- Option value format, from `message.go` (`valueFormat` and its constants). -/
inductive valueFormat where
  | valueUnknown
  | valueEmpty
  | valueOpaque
  | valueUint
  | valueString
deriving DecidableEq, Repr

/-- Registry entry, from `message.go` (`optionDef`). -/
structure optionDef where
  valueFormat : valueFormat
  minLen : Nat
  maxLen : Nat
deriving DecidableEq, Repr

/-- The option registry, from `message.go` (`optionDefs`, a `[256]optionDef`
array; unset ids hold the zero value `{valueUnknown, 0, 0}`). -/
def optionDefs (id : Nat) : optionDef :=
  match id with
  | 1 => ⟨.valueOpaque, 0, 8⟩      -- IfMatch
  | 3 => ⟨.valueString, 1, 255⟩    -- URIHost
  | 4 => ⟨.valueOpaque, 1, 8⟩      -- ETag
  | 5 => ⟨.valueEmpty, 0, 0⟩       -- IfNoneMatch
  | 6 => ⟨.valueUint, 0, 3⟩        -- Observe
  | 7 => ⟨.valueUint, 0, 2⟩        -- URIPort
  | 8 => ⟨.valueString, 0, 255⟩    -- LocationPath
  | 11 => ⟨.valueString, 0, 255⟩   -- URIPath
  | 12 => ⟨.valueUint, 0, 2⟩       -- ContentFormat
  | 14 => ⟨.valueUint, 0, 4⟩       -- MaxAge
  | 15 => ⟨.valueString, 0, 255⟩   -- URIQuery
  | 17 => ⟨.valueUint, 0, 2⟩       -- Accept
  | 20 => ⟨.valueString, 0, 255⟩   -- LocationQuery
  | 35 => ⟨.valueString, 1, 1034⟩  -- ProxyURI
  | 39 => ⟨.valueString, 1, 255⟩   -- ProxyScheme
  | 60 => ⟨.valueUint, 0, 4⟩       -- Size1
  | _ => ⟨.valueUnknown, 0, 0⟩

/-- The `ContentFormat` option id. -/
def ContentFormat : Nat := 12
/-- The `Accept` option id. -/
def Accept : Nat := 17

/-- An option value.  Go stores `interface{}`; the codec accepts `string`
(`str`), `[]byte` (`opaq`), `MediaType` (`media`), the integer kinds
`int`/`int32`/`uint`/`uint32` (`uint`, held as the `uint32` the Go code
converts to), and panics on anything else (`invalid`). -/
inductive OptVal where
  | str (s : List Nat)
  | opaq (b : List Nat)
  | media (v : Nat)
  | uint (v : Nat)
  | invalid
deriving DecidableEq, Repr

/-- An option, from `message.go` (`option`: `ID OptionID; Value interface{}`;
`OptionID` is `uint8`, so on the Go side `id < 256` always holds). -/
structure Opt where
  id : Nat
  val : OptVal
deriving DecidableEq, Repr

/-- The `encodeInt` from `message.go`: minimal big-endian encoding of a `uint32`
(zero encodes as no bytes). -/
def encodeInt (v : Nat) : List Nat :=
  if v = 0 then []
  else if v < 256 then [v]
  else if v < 65536 then [v / 256, v % 256]
  else if v < 16777216 then [v / 65536, v / 256 % 256, v % 256]
  else [v / 16777216 % 256, v / 65536 % 256, v / 256 % 256, v % 256]

/-- The `decodeInt` from `message.go`: big-endian read of at most 4 value bytes
(the Go code pads the slice to 4 bytes and reads a `uint32`). -/
def decodeInt (b : List Nat) : Nat :=
  b.foldl (fun acc x => acc * 256 + x) 0

/-- The `option.toBytes` from `message.go`.  `none` models the `panic` on a value
of unsupported dynamic type.  The integer cases first convert to `uint32`. -/
def Opt.toBytes (o : Opt) : Option (List Nat) :=
  match o.val with
  | .str s => some s
  | .opaq b => some b
  | .media v => some (encodeInt (v % 2 ^ 32))
  | .uint v => some (encodeInt (v % 2 ^ 32))
  | .invalid => none

/-- The `parseOptionValue` from `message.go`: `none` models the Go `nil` return
(option silently skipped) for unknown ids and out-of-bound value lengths. -/
def parseOptionValue (optionID : Nat) (valueBuf : List Nat) : Option OptVal :=
  let d := optionDefs optionID
  if d.valueFormat = .valueUnknown then
    none  -- Skip unrecognized options (RFC7252 section 5.4.1)
  else if valueBuf.length < d.minLen ∨ d.maxLen < valueBuf.length then
    none  -- Skip options with illegal value length (RFC7252 section 5.4.3)
  else
    match d.valueFormat with
    | .valueUint =>
      if optionID = ContentFormat ∨ optionID = Accept then
        some (.media (decodeInt valueBuf))
      else
        some (.uint (decodeInt valueBuf))
    | .valueString => some (.str valueBuf)
    | .valueOpaque => some (.opaq valueBuf)
    | .valueEmpty => some (.opaq valueBuf)
    | .valueUnknown => none

/-- The `extoptByteCode` from `message.go`. -/
def extoptByteCode : Int := 13
/-- The `extoptByteAddend` from `message.go`. -/
def extoptByteAddend : Int := 13
/-- The `extoptWordCode` from `message.go`. -/
def extoptWordCode : Int := 14
/-- The `extoptWordAddend` from `message.go`. -/
def extoptWordAddend : Int := 269
/-- The `extoptError` from `message.go`. -/
def extoptError : Nat := 15

/-- The `extendOpt` (closure inside `writeOpt` in `message.go`): split a delta or
length value into its 4-bit nibble and extension value.  Go computes on `int`,
hence `Int` here. -/
def extendOpt (opt : Int) : Int × Int :=
  if extoptByteAddend ≤ opt then
    if extoptWordAddend ≤ opt then
      (extoptWordCode, opt - extoptWordAddend)
    else
      (extoptByteCode, opt - extoptByteAddend)
  else
    (opt, 0)

/-- The `writeExt` (closure inside `writeOptHeader` in `message.go`): emit the
extension bytes for an extended nibble — one byte (`byte(ext)`) after nibble
13, a big-endian `uint16` after nibble 14, nothing otherwise. -/
def writeExt (opt ext : Int) : List Nat :=
  if opt = extoptByteCode then
    [(ext % 256).toNat]
  else if opt = extoptWordCode then
    [(ext % 65536).toNat / 256, (ext % 65536).toNat % 256]
  else
    []

/-- The `writeOptHeader` (closure inside `writeOpt` in `message.go`): the header
byte `byte(d<<4) | byte(l)` followed by the delta then length extensions. -/
def writeOptHeader (delta length : Int) : List Nat :=
  (((extendOpt delta).1 * 16 % 256).toNat ||| ((extendOpt length).1 % 256).toNat) ::
    (writeExt (extendOpt delta).1 (extendOpt delta).2 ++
      writeExt (extendOpt length).1 (extendOpt length).2)

/-- The `writeOpt` from `message.go`: header (for this option's delta and its
value's byte length) followed by the value bytes.  `none` propagates the
`toBytes` panic on an invalid value type. -/
def writeOpt (o : Opt) (delta : Int) : Option (List Nat) :=
  match o.toBytes with
  | none => none
  | some b => some (writeOptHeader delta (b.length : Int) ++ b)

/-- Loop body of `writeOpts` from `message.go`: each option is written at
delta `int(o.ID) - prev`, and `prev` becomes `int(o.ID)`. -/
def writeOptsLoop (prev : Int) : List Opt → Option (List Nat)
  | [] => some []
  | o :: rest =>
    match writeOpt o ((o.id : Int) - prev) with
    | none => none
    | some w =>
      match writeOptsLoop (o.id : Int) rest with
      | none => none
      | some ws => some (w ++ ws)

/-- The `writeOpts` from `message.go`: `prev` starts at 0. -/
def writeOpts (opts : List Opt) : Option (List Nat) :=
  writeOptsLoop 0 opts

/-- Specification-side form of the header deltas `writeOpts` computes:
`currentID - previousID` (as Go `int`s) along the list, `prev` starting at
the given value. -/
def deltasFrom (prev : Int) : List Opt → List Int
  | [] => []
  | o :: rest => ((o.id : Int) - prev) :: deltasFrom (o.id : Int) rest

/-- Specification-side form of the `writeOpts` loop with the per-option
deltas made explicit: each option is written by `writeOpt` at its paired
delta. -/
def zipWriteOpts : List (Opt × Int) → Option (List Nat)
  | [] => some []
  | (o, d) :: rest =>
    match writeOpt o d with
    | none => none
    | some w =>
      match zipWriteOpts rest with
      | none => none
      | some ws => some (w ++ ws)

/-- Specification-side form of the nibble `extendOpt` computes for a
non-negative value. -/
def nibbleOf (v : Nat) : Nat :=
  if v < 13 then v else if v < 269 then 13 else 14

/-- Specification-side form of the extension value `extendOpt` computes for a
non-negative value. -/
def extOf (v : Nat) : Nat :=
  if v < 13 then 0 else if v < 269 then v - 13 else v - 269

/-- Specification-side form of the extension bytes `writeExt` emits for a
non-negative value: none for 0–12, one byte holding `v - 13` for 13–268, a
big-endian two-byte `v - 269` for 269 and above. -/
def extBytesOf (v : Nat) : List Nat :=
  if v < 13 then []
  else if v < 269 then [v - 13]
  else [(v - 269) / 256, (v - 269) % 256]

/-- The `parseExtOpt` (closure inside `parseBody` in `message.go`): decode the
extension of a nibble value, consuming 1 byte after nibble 13 (value
`byte + 13`) and 2 big-endian bytes after nibble 14 (value `word + 269`);
any other nibble passes through unchanged.  Errors are the Go `"truncated"`
errors. -/
def parseExtOpt (opt : Nat) (data : List Nat) : Except String (Nat × List Nat) :=
  if opt = 13 then
    match data with
    | [] => .error "truncated"
    | b :: rest => .ok (b + 13, rest)
  else if opt = 14 then
    match data with
    | b1 :: b2 :: rest => .ok (b1 * 256 + b2 + 269, rest)
    | _ => .error "truncated"
  else
    .ok (opt, data)

/-- Result of one iteration of the `parseBody` loop on a non-empty input:
either the `0xFF` marker was hit (the rest is payload), or one option header
and value were consumed, yielding the option id `OptionID(prev+delta)`
(a `uint8`, hence `% 256`), the parsed value (`none` when the option is
silently skipped) and the remaining bytes. -/
inductive StepRes where
  | done (payload : List Nat)
  | opt (oid : Nat) (v : Option OptVal) (rest : List Nat)
deriving DecidableEq, Repr

/-- One iteration of the `parseBody` loop from `message.go`, on input
`b :: rest` with running previous id `prev`: check the `0xFF` payload marker,
reject nibble value 15 in either position, decode the delta and length
extensions, check that enough value bytes remain, and split off the value. -/
def parseBodyStep (prev b : Nat) (rest : List Nat) : Except String StepRes :=
  if b = 255 then
    .ok (.done rest)
  else if b / 16 % 16 = extoptError ∨ b % 16 = extoptError then
    .error "unexpected extended option marker"
  else
    match parseExtOpt (b / 16 % 16) rest with
    | .error e => .error e
    | .ok (delta, rest1) =>
      match parseExtOpt (b % 16) rest1 with
      | .error e => .error e
      | .ok (length, rest2) =>
        if rest2.length < length then
          .error "truncated"
        else
          let oid := (prev + delta) % 256
          .ok (.opt oid (parseOptionValue oid (rest2.take length)) (rest2.drop length))

/-- The `parseBody` loop from `message.go`, by recursion on fuel (each
iteration consumes at least the header byte, so fuel `data.length` always
suffices; the fuel-exhausted branch is unreachable from `parseBody`). -/
def parseBodyAux : Nat → Nat → List Nat → Except String (List Opt × List Nat)
  | _, _, [] => .ok ([], [])
  | 0, _, _ :: _ => .error "truncated"
  | fuel + 1, prev, b :: rest =>
    match parseBodyStep prev b rest with
    | .error e => .error e
    | .ok (.done payload) => .ok ([], payload)
    | .ok (.opt oid none rest3) => parseBodyAux fuel oid rest3
    | .ok (.opt oid (some v) rest3) =>
      match parseBodyAux fuel oid rest3 with
      | .error e => .error e
      | .ok (os, payload) => .ok (⟨oid, v⟩ :: os, payload)

/-- The `parseBody` loop from `message.go`, entered with previous id `prev`. -/
def parseBodyLoop (prev : Nat) (data : List Nat) : Except String (List Opt × List Nat) :=
  parseBodyAux data.length prev data

/-- The `parseBody` from `message.go`: extract the options and the payload from
everything following the message header/token; `prev` starts at 0. -/
def parseBody (data : List Nat) : Except String (List Opt × List Nat) :=
  parseBodyLoop 0 data

/-- Message-encoding error, from `message.go` (`ErrOptionTooLong`) and the
`toBytes` panic on an unsupported value type. -/
inductive EncErr where
  | optionTooLong
  | invalidOptionType
deriving DecidableEq, Repr

/-- The ascending-id stable sort applied to the option list before encoding
(`options.Less` from `message.go` orders by `ID`, ties by index). -/
def sortOpts (opts : List Opt) : List Opt :=
  List.insertionSort (fun a b => a.id ≤ b.id) opts

instance : IsTotal Opt (fun a b => a.id ≤ b.id) :=
  ⟨fun a b => Nat.le_total a.id b.id⟩

instance : IsTrans Opt (fun a b => a.id ≤ b.id) :=
  ⟨fun _ _ _ => Nat.le_trans⟩

/-- Modelled from the spec: the encoding-side validation of one option
performed by `MarshalBinary` (which is not under `src/`; only `toBytes` and
the `ErrOptionTooLong` value are).  Per the spec, encoding fails with
`InvalidOptionType` when the value's dynamic type cannot map to
text/bytes/integer, and with `OptionTooLong` when the encoded value length
exceeds the registry entry's max bound. -/
def optValid (o : Opt) : Except EncErr Unit :=
  match o.toBytes with
  | none => .error .invalidOptionType
  | some b =>
    if (optionDefs o.id).valueFormat ≠ .valueUnknown ∧ (optionDefs o.id).maxLen < b.length then
      .error .optionTooLong
    else
      .ok ()

/-- Modelled from the spec: validation of all options, first offender wins. -/
def validateOpts : List Opt → Except EncErr Unit
  | [] => .ok ()
  | o :: rest =>
    match optValid o with
    | .error e => .error e
    | .ok _ => validateOpts rest

/-- Modelled from the spec: the options-and-payload region of `Encode`
(`MarshalBinary`, not under `src/`): sort the options ascending by id,
validate them, write them with `writeOpts` (delta encoding, `prev` starting
at 0), then append a single `0xFF` marker and the payload when the payload is
non-empty (no marker when it is empty). -/
def encodeBody (opts : List Opt) (payload : List Nat) : Except EncErr (List Nat) :=
  match validateOpts (sortOpts opts) with
  | .error e => .error e
  | .ok _ =>
    match writeOpts (sortOpts opts) with
    | none => .error .invalidOptionType
    | some bs => .ok (bs ++ if payload = [] then [] else 255 :: payload)

/-- The `MessageBase` from `message.go` (`typ`, `code`, `messageID`, `token`,
`payload`, `opts`); the fixed header fields are carried untouched — the codec
under verification owns only the options-and-payload region. -/
structure MessageBase where
  typ : Nat
  code : Nat
  messageID : Nat
  token : List Nat
  payload : List Nat
  opts : List Opt
deriving DecidableEq, Repr

/-- An option value conforms to the Option Registry when its shape is the one
the registry entry for its id demands (`string` for `valueString` entries,
bytes for `valueOpaque`/`valueEmpty` entries, a media type for the two
media-type integer ids `ContentFormat`/`Accept`, a plain `uint32` for the
other integer ids) and its encoded byte length lies within the entry's
`[minLen, maxLen]` bound; the id itself must fit `OptionID` (a `uint8`). -/
def conforms (o : Opt) : Bool :=
  let d := optionDefs o.id
  decide (o.id < 256) &&
  match d.valueFormat, o.val with
  | .valueString, .str s =>
    s.all (· < 256) && decide (d.minLen ≤ s.length ∧ s.length ≤ d.maxLen)
  | .valueOpaque, .opaq b =>
    b.all (· < 256) && decide (d.minLen ≤ b.length ∧ b.length ≤ d.maxLen)
  | .valueEmpty, .opaq b => decide (b = [])
  | .valueUint, .media v =>
    (decide (o.id = ContentFormat) || decide (o.id = Accept)) && decide (v < 256) &&
      decide (d.minLen ≤ (encodeInt v).length ∧ (encodeInt v).length ≤ d.maxLen)
  | .valueUint, .uint v =>
    !(decide (o.id = ContentFormat) || decide (o.id = Accept)) && decide (v < 2 ^ 32) &&
      decide (d.minLen ≤ (encodeInt v).length ∧ (encodeInt v).length ≤ d.maxLen)
  | _, _ => false

end Coap

namespace Base64

/-- Character of the standard base64 alphabet (as an ASCII code), as used by
Go's `encoding/base64.StdEncoding`. -/
def b64Char (n : Nat) : Nat :=
  if n < 26 then 65 + n             -- A-Z
  else if n < 52 then 97 + (n - 26) -- a-z
  else if n < 62 then 48 + (n - 52) -- 0-9
  else if n = 62 then 43            -- +
  else 47                           -- /

/-- Value of a base64 alphabet character; `none` on a character outside the
alphabet (Go's `CorruptInputError`). -/
def b64Val (c : Nat) : Option Nat :=
  if 65 ≤ c ∧ c ≤ 90 then some (c - 65)
  else if 97 ≤ c ∧ c ≤ 122 then some (c - 71)
  else if 48 ≤ c ∧ c ≤ 57 then some (c + 4)
  else if c = 43 then some 62
  else if c = 47 then some 63
  else none

/-- Standard base64 encoding (`base64.StdEncoding.Encode`): three input
bytes map to four alphabet characters; a final group of one or two bytes is
padded with `'='` (61). -/
def base64Encode : List Nat → List Nat
  | [] => []
  | [a] =>
    [b64Char (a % 256 / 4), b64Char (a % 256 % 4 * 16), 61, 61]
  | [a, b] =>
    [b64Char (a % 256 / 4), b64Char (a % 256 % 4 * 16 + b % 256 / 16),
     b64Char (b % 256 % 16 * 4), 61]
  | a :: b :: c :: rest =>
    b64Char (a % 256 / 4) :: b64Char (a % 256 % 4 * 16 + b % 256 / 16) ::
      b64Char (b % 256 % 16 * 4 + c % 256 / 64) :: b64Char (c % 256 % 64) ::
      base64Encode rest

/-- Standard base64 decoding (`base64.StdEncoding.DecodeString`): the input
must be a sequence of 4-character quanta; `'='` padding is allowed only at
the very end.  (Trailing-bit pedantry of newer Go versions is not modelled;
all inputs decoded in this development are produced by `base64Encode`.) -/
def base64Decode : List Nat → Option (List Nat)
  | [] => some []
  | c1 :: c2 :: c3 :: c4 :: rest =>
    match b64Val c1, b64Val c2 with
    | some v1, some v2 =>
      if c3 = 61 then
        if c4 = 61 ∧ rest = [] then some [v1 * 4 + v2 / 16] else none
      else
        match b64Val c3 with
        | none => none
        | some v3 =>
          if c4 = 61 then
            if rest = [] then some [v1 * 4 + v2 / 16, v2 % 16 * 16 + v3 / 4] else none
          else
            match b64Val c4, base64Decode rest with
            | some v4, some bs =>
              some ((v1 * 4 + v2 / 16) :: (v2 % 16 * 16 + v3 / 4) :: (v3 % 4 * 64 + v4) :: bs)
            | _, _ => none
    | _, _ => none
  | _ => none

end Base64

namespace Nmserial

open Base64

/-- The framed buffer built by `SerialXport.Tx` in `serial_xport.go` before
text encoding: the 16-bit checksum of the payload is appended big-endian,
then the 16-bit big-endian length of the checksummed buffer is prepended.
`crc16` is the collaborator checksum function (`joaojeronimo/go-crc16`, not
part of this repository); its Go result type is `uint16`. -/
def txFrame (crc16 : List Nat → Nat) (bytes : List Nat) : List Nat :=
  let crc := crc16 bytes
  let withCrc := bytes ++ [crc / 256 % 256, crc % 256]
  let dLen := withCrc.length % 65536
  [dLen / 256, dLen % 256] ++ withCrc

/-- The burst loop of `SerialXport.Tx`, by recursion on fuel (every burst
consumes at least one encoded byte, so fuel `data.length` suffices): each
burst is at most 124 encoded bytes, prefixed by the start marker `{6, 9}` on
the first burst and the continuation marker `{4, 20}` afterwards, and
terminated by a newline (10).  The result is the concatenation of all bytes
written to the port. -/
def txChunksAux : Nat → Bool → List Nat → List Nat
  | _, _, [] => []
  | 0, _, _ :: _ => []
  | fuel + 1, first, b :: rest =>
    (if first then [6, 9] else [4, 20]) ++ (b :: rest).take 124 ++ [10] ++
      txChunksAux fuel false ((b :: rest).drop 124)

/-- The burst loop of `SerialXport.Tx` (fuel instantiated). -/
def txChunks (first : Bool) (data : List Nat) : List Nat :=
  txChunksAux data.length first data

/-- The `SerialXport.Tx` from `serial_xport.go`: frame, base64-encode, and write
in marked bursts. -/
def Tx (crc16 : List Nat → Nat) (bytes : List Nat) : List Nat :=
  txChunks true (base64Encode (txFrame crc16 bytes))

/-- Specification-side chunking: split a list into consecutive pieces of `n`
bytes (last piece shorter), used to state what the burst loop emits. -/
def chunksOfAux : Nat → Nat → List Nat → List (List Nat)
  | _, _, [] => []
  | 0, _, _ :: _ => []
  | fuel + 1, n, b :: rest => (b :: rest).take n :: chunksOfAux fuel n ((b :: rest).drop n)

/-- Specification-side chunking (fuel instantiated). -/
def chunksOf (n : Nat) (l : List Nat) : List (List Nat) :=
  chunksOfAux l.length n l

/-- Modelled from the spec: the `Packet` reassembly unit (`packet.go` of this
repository is not under `src/`): `expectedLen` is the length declared by the
frame start, `buffer` accumulates received bytes and never exceeds
`expectedLen`. -/
structure Packet where
  expectedLen : Nat
  buffer : List Nat
deriving DecidableEq, Repr

/-- Modelled from the spec: `Packet.AddBytes` — append incoming bytes (never
letting the buffer exceed the expected length) and report whether the packet
is now complete. -/
def Packet.addBytes (p : Packet) (data : List Nat) : Packet × Bool :=
  let buf := p.buffer ++ data.take (p.expectedLen - p.buffer.length)
  (⟨p.expectedLen, buf⟩, decide (p.expectedLen ≤ buf.length))

/-- Outcome of processing one received line in `SerialXport.Rx`: keep
scanning (`cont`), return an error to the caller (`err`), or return a
complete frame (`frame`). -/
inductive RxOut where
  | cont
  | err (e : String)
  | frame (b : List Nat)
deriving DecidableEq, Repr

/-- The leading-carriage-return strip loop of `SerialXport.Rx`
(`for len(line) > 1 && line[0] == '\r'`). -/
def stripCR : List Nat → List Nat
  | 13 :: b :: rest => stripCR (b :: rest)
  | l => l

/-- Whether a received line is a start-marker line (after stripping leading
carriage returns, its first two bytes are `{6, 9}`) — the only kind of line
that replaces the packet being reassembled. -/
def isStartLine (line : List Nat) : Bool :=
  match stripCR line with
  | 6 :: 9 :: _ => true
  | _ => false

/-- Feed decoded line data into the current packet (tail of the
`SerialXport.Rx` loop body): with no packet in progress the line is ignored;
otherwise the bytes are added, and on completion the inclusive CRC over the
whole accumulated buffer must be zero — `"CRC error"` is returned with the
packet still in place otherwise (the source does not clear `sx.pkt` on this
path) — else the two checksum bytes are trimmed and the frame is returned
with the packet slot cleared. -/
def rxFeed (crc16 : List Nat → Nat) : Option Packet → List Nat → Option Packet × RxOut
  | none, _ => (none, .cont)
  | some p, data =>
    if (p.addBytes data).2 then
      if crc16 (p.addBytes data).1.buffer ≠ 0 then
        (some (p.addBytes data).1, .err "CRC error")
      else
        (none, .frame ((p.addBytes data).1.buffer.take ((p.addBytes data).1.buffer.length - 2)))
    else
      (some (p.addBytes data).1, .cont)

/-- One iteration of the `SerialXport.Rx` scanner loop from
`serial_xport.go`: strip leading `'\r'`, ignore lines shorter than 2 bytes or
whose first two bytes are neither the continuation marker `{4, 20}` nor the
start marker `{6, 9}`, base64-decode the remainder (a decode failure is
returned as an error), on a start-marker line read the 16-bit big-endian
declared length and begin a new packet (ignoring the line if fewer than 2
decoded bytes are present), then feed the remaining bytes into the current
packet. -/
def rxLine (crc16 : List Nat → Nat) (pkt : Option Packet) (line : List Nat) :
    Option Packet × RxOut :=
  match stripCR line with
  | a :: b :: rest =>
    if ¬((a = 4 ∧ b = 20) ∨ (a = 6 ∧ b = 9)) then
      (pkt, .cont)
    else
      match base64Decode rest with
      | none => (pkt, .err "Could not decode base64 string")
      | some data =>
        if a = 6 ∧ b = 9 then
          match data with
          | d1 :: d2 :: drest => rxFeed crc16 (some ⟨d1 * 256 + d2, []⟩) drest
          | _ => (pkt, .cont)
        else
          rxFeed crc16 pkt data
  | _ => (pkt, .cont)

/-- Run the `SerialXport.Rx` loop over a list of scanner lines, stopping at
the first error or complete frame; an exhausted scanner corresponds to the
source's timeout path (which reinitializes the scanner but not the packet). -/
def rxRun (crc16 : List Nat → Nat) (pkt : Option Packet) :
    List (List Nat) → Option Packet × RxOut
  | [] => (pkt, .cont)
  | l :: ls =>
    match rxLine crc16 pkt l with
    | (pkt1, .cont) => rxRun crc16 pkt1 ls
    | (pkt1, out) => (pkt1, out)

end Nmserial

namespace MtechLora

/-- The `COAP_LORA_LAST_FRAG` from the `lora` package (value per the spec: the
high bit of the fragment-number byte). -/
def COAP_LORA_LAST_FRAG : Nat := 128

/-- Modelled from the spec: serialization of `lora.CoapLoraFragStart` (the
`lora` package is not under `src/`).  The spec reserves 4 header bytes on the
first segment: the fragment number (with the last-fragment flag in bit 7)
and the 16-bit checksum of the whole un-fragmented payload; the source writes
the struct with `binary.LittleEndian`, so the checksum is little-endian; the
fourth (padding) byte is taken as zero, placed after the fragment number. -/
def fragStartHdr (fragNum crc : Nat) : List Nat :=
  [fragNum % 256, 0, crc % 256, crc / 256 % 256]

/-- Modelled from the spec: serialization of `lora.CoapLoraFrag` — the single
fragment-number byte (with the last-fragment flag in bit 7). -/
def fragHdr (fragNum : Nat) : List Nat :=
  [fragNum % 256]

/-- The continuation-segment loop of `LoraSesn.sendFragments` from
`mtech_lora_sesn.go`, by recursion on fuel (each segment carries at least one
payload byte when `segSz ≥ 2`, so fuel `rem.length` suffices): each segment
is a 1-byte header `uint8(idx)`, OR-ed with `COAP_LORA_LAST_FRAG` when the
remaining bytes fit in `segSz - 1`, followed by up to `segSz - 1` payload
bytes.  For `segSz ≤ 1` the source loops forever (callers never pass such a
size); the model returns `[]` there. -/
def contFragsAux : Nat → Nat → Nat → List Nat → List (List Nat)
  | _, _, _, [] => []
  | 0, _, _, _ :: _ => []
  | fuel + 1, segSz, idx, r :: rs =>
    if segSz ≤ 1 then []
    else
      (fragHdr (idx % 256 |||
          if (r :: rs).length ≤ segSz - 1 then COAP_LORA_LAST_FRAG else 0) ++
        (r :: rs).take (if (r :: rs).length ≤ segSz - 1 then (r :: rs).length else segSz - 1)) ::
        contFragsAux fuel segSz (idx + 1)
          ((r :: rs).drop (if (r :: rs).length ≤ segSz - 1 then (r :: rs).length else segSz - 1))

/-- The continuation-segment loop (fuel instantiated). -/
def contFrags (segSz idx : Nat) (rem : List Nat) : List (List Nat) :=
  contFragsAux rem.length segSz idx rem

/-- The `LoraSesn.sendFragments` from `mtech_lora_sesn.go`, as the list of raw
segment buffers (`seg`) it builds: the first segment reserves the 4-byte
start header (fragment number 0, checksum of the whole payload `b`) and
carries `segSz - 4` payload bytes — or all of `b` with the last-fragment
flag set when `b` fits — and the remaining bytes go into continuation
segments.  The per-segment base64 + JSON envelope + publish step is applied
to each buffer afterwards and does not alter the segment structure.  For a
non-empty payload and `segSz ≤ 4` the source loops forever (callers never
pass such a size). -/
def sendFragments (crc16 : List Nat → Nat) (segSz : Nat) (b : List Nat) : List (List Nat) :=
  if b = [] then []
  else
    (fragStartHdr (if b.length ≤ segSz - 4 then COAP_LORA_LAST_FRAG else 0) (crc16 b) ++
      b.take (if b.length ≤ segSz - 4 then b.length else segSz - 4)) ::
      contFrags segSz 1 (b.drop (if b.length ≤ segSz - 4 then b.length else segSz - 4))

end MtechLora

/-! ## Lemmas about the CoAP codec -/

namespace Coap

theorem decodeInt_encodeInt (v : Nat) (h : v < 2 ^ 32) : decodeInt (encodeInt v) = v := by
  unfold encodeInt decodeInt
  split_ifs <;> simp [List.foldl] <;> omega

theorem extendOpt_eq (v : Nat) : extendOpt (v : Int) = ((nibbleOf v : Int), (extOf v : Int)) := by
  unfold extendOpt nibbleOf extOf extoptByteAddend extoptWordAddend extoptByteCode extoptWordCode
  split_ifs <;> simp [Prod.ext_iff] <;> omega

theorem nibbleOf_le (v : Nat) : nibbleOf v ≤ 14 := by
  unfold nibbleOf; split_ifs <;> omega

theorem writeExt_eq (v : Nat) (h : v ≤ 65804) :
    writeExt (nibbleOf v : Int) (extOf v : Int) = extBytesOf v := by
  unfold writeExt nibbleOf extOf extBytesOf extoptByteCode extoptWordCode
  by_cases h1 : v < 13
  · have ha : ¬((v : Int) = 13) := by omega
    have hb : ¬((v : Int) = 14) := by omega
    simp [h1, ha, hb]
  · by_cases h2 : v < 269
    · simp only [h1, h2, if_true, if_false]
      norm_num
      omega
    · simp only [h1, h2, if_false]
      norm_num
      constructor <;> omega

theorem parseExtOpt_extBytes (v : Nat) (h : v ≤ 65804) (rest : List Nat) :
    parseExtOpt (nibbleOf v) (extBytesOf v ++ rest) = .ok (v, rest) := by
  unfold parseExtOpt nibbleOf extBytesOf
  by_cases h1 : v < 13
  · have ha : v ≠ 13 := by omega
    have hb : v ≠ 14 := by omega
    simp [h1, ha, hb]
  · by_cases h2 : v < 269
    · simp only [h1, if_false, h2, if_true, List.cons_append, if_pos rfl]
      simp
      omega
    · simp only [h1, h2, if_false, List.cons_append]
      norm_num
      omega

theorem lor_sixteen {d l : Nat} (hd : d ≤ 14) (hl : l ≤ 14) : 16 * d ||| l = 16 * d + l := by
  have key : ∀ a : Fin 15, ∀ b : Fin 15, 16 * a.val ||| b.val = 16 * a.val + b.val := by decide
  exact key ⟨d, by omega⟩ ⟨l, by omega⟩

theorem writeOptHeader_eq (dd ll : Nat) (hd : dd ≤ 65804) (hl : ll ≤ 65804) :
    writeOptHeader (dd : Int) (ll : Int) =
      (16 * nibbleOf dd + nibbleOf ll) :: (extBytesOf dd ++ extBytesOf ll) := by
  unfold writeOptHeader
  rw [extendOpt_eq dd, extendOpt_eq ll]
  have h1 : ((nibbleOf dd : Int) * 16 % 256).toNat = 16 * nibbleOf dd := by
    have := nibbleOf_le dd; omega
  have h2 : ((nibbleOf ll : Int) % 256).toNat = nibbleOf ll := by
    have := nibbleOf_le ll; omega
  rw [h1, h2, lor_sixteen (nibbleOf_le dd) (nibbleOf_le ll),
    writeExt_eq dd hd, writeExt_eq ll hl]

theorem parseExtOpt_le {opt v : Nat} {data rest : List Nat}
    (h : parseExtOpt opt data = .ok (v, rest)) : rest.length ≤ data.length := by
  unfold parseExtOpt at h
  split_ifs at h
  · cases data with
    | nil => simp at h
    | cons x xs =>
      simp only [Except.ok.injEq, Prod.mk.injEq] at h
      rw [← h.2]
      simp
  · cases data with
    | nil => simp at h
    | cons b1 tl =>
      cases tl with
      | nil => simp at h
      | cons b2 ds =>
        simp only [Except.ok.injEq, Prod.mk.injEq] at h
        rw [← h.2]
        simp
        omega
  · simp only [Except.ok.injEq, Prod.mk.injEq] at h
    rw [← h.2]

theorem parseBodyStep_rest_le {prev b oid : Nat} {v : Option OptVal} {rest rest3 : List Nat}
    (h : parseBodyStep prev b rest = .ok (.opt oid v rest3)) : rest3.length ≤ rest.length := by
  unfold parseBodyStep at h
  split_ifs at h
  · simp at h
  · cases e1 : parseExtOpt (b / 16 % 16) rest with
    | error e => rw [e1] at h; simp at h
    | ok p1 =>
      obtain ⟨delta, rest1⟩ := p1
      rw [e1] at h
      simp only at h
      cases e2 : parseExtOpt (b % 16) rest1 with
      | error e => rw [e2] at h; simp at h
      | ok p2 =>
        obtain ⟨len, rest2⟩ := p2
        rw [e2] at h
        simp only at h
        split_ifs at h
        simp only [Except.ok.injEq, StepRes.opt.injEq] at h
        rw [← h.2.2]
        calc (rest2.drop len).length ≤ rest2.length := by simp
          _ ≤ rest1.length := parseExtOpt_le e2
          _ ≤ rest.length := parseExtOpt_le e1


theorem parseBodyAux_congr :
    ∀ {f1 f2 prev : Nat} {data : List Nat}, data.length ≤ f1 → data.length ≤ f2 →
      parseBodyAux f1 prev data = parseBodyAux f2 prev data := by
  intro f1
  induction f1 with
  | zero =>
    intro f2 prev data h1 h2
    have : data = [] := by
      cases data with
      | nil => rfl
      | cons x xs => simp at h1
    subst this
    cases f2 <;> rfl
  | succ f ih =>
    intro f2 prev data h1 h2
    cases data with
    | nil => cases f2 <;> rfl
    | cons b rest =>
      cases f2 with
      | zero => simp at h2
      | succ f2 =>
        show parseBodyAux (f + 1) prev (b :: rest) = parseBodyAux (f2 + 1) prev (b :: rest)
        simp only [parseBodyAux]
        cases e : parseBodyStep prev b rest with
        | error e => rfl
        | ok s =>
          cases s with
          | done payload => rfl
          | opt oid v rest3 =>
            have hle : rest3.length ≤ rest.length := parseBodyStep_rest_le e
            have hrec : parseBodyAux f oid rest3 = parseBodyAux f2 oid rest3 :=
              ih (by simp at h1; omega) (by simp at h2; omega)
            cases v <;> simp only [e, hrec]

theorem parseBodyLoop_nil (prev : Nat) : parseBodyLoop prev [] = .ok ([], []) := rfl

theorem parseBodyLoop_cons (prev b : Nat) (rest : List Nat) :
    parseBodyLoop prev (b :: rest) =
      match parseBodyStep prev b rest with
      | .error e => .error e
      | .ok (.done payload) => .ok ([], payload)
      | .ok (.opt oid none rest3) => parseBodyLoop oid rest3
      | .ok (.opt oid (some v) rest3) =>
        match parseBodyLoop oid rest3 with
        | .error e => .error e
        | .ok (os, payload) => .ok (⟨oid, v⟩ :: os, payload) := by
  show parseBodyAux (rest.length + 1) prev (b :: rest) = _
  cases e : parseBodyStep prev b rest with
  | error e => simp only [parseBodyAux, e]
  | ok s =>
    cases s with
    | done payload => simp only [parseBodyAux, e]
    | opt oid v rest3 =>
      have hle : rest3.length ≤ rest.length := parseBodyStep_rest_le e
      have hrec : parseBodyAux rest.length oid rest3 = parseBodyLoop oid rest3 :=
        parseBodyAux_congr hle (Nat.le_refl _)
      cases v <;> simp only [parseBodyAux, e, hrec]


theorem parseBodyStep_encoded (prev dd ll : Nat) (hdd : dd ≤ 65804) (hll : ll ≤ 65804)
    (vb tail : List Nat) (hvb : vb.length = ll) :
    parseBodyStep prev (16 * nibbleOf dd + nibbleOf ll)
        ((extBytesOf dd ++ extBytesOf ll) ++ (vb ++ tail)) =
      .ok (.opt ((prev + dd) % 256) (parseOptionValue ((prev + dd) % 256) vb) tail) := by
  have hnd := nibbleOf_le dd
  have hnl := nibbleOf_le ll
  unfold parseBodyStep
  have h255 : ¬(16 * nibbleOf dd + nibbleOf ll = 255) := by omega
  have hdiv : (16 * nibbleOf dd + nibbleOf ll) / 16 % 16 = nibbleOf dd := by omega
  have hmod : (16 * nibbleOf dd + nibbleOf ll) % 16 = nibbleOf ll := by omega
  have h15 : ¬((16 * nibbleOf dd + nibbleOf ll) / 16 % 16 = extoptError ∨
      (16 * nibbleOf dd + nibbleOf ll) % 16 = extoptError) := by
    unfold extoptError; omega
  rw [if_neg h255, if_neg h15, hdiv, hmod, List.append_assoc,
    parseExtOpt_extBytes dd hdd]
  simp only
  rw [parseExtOpt_extBytes ll hll]
  simp only
  have hlen : ¬((vb ++ tail).length < ll) := by simp [hvb]
  rw [if_neg hlen, ← hvb, List.take_left, List.drop_left]

theorem optionDefs_maxLen_le (id : Nat) : (optionDefs id).maxLen ≤ 1034 := by
  unfold optionDefs; split <;> simp

theorem optionDefs_empty_minLen (id : Nat)
    (h : (optionDefs id).valueFormat = .valueEmpty) : (optionDefs id).minLen = 0 := by
  unfold optionDefs at h ⊢; split at h <;> simp_all

/-- What conformance to the registry buys: the value serializes, its byte
length satisfies the registry bound, and parsing those bytes back under the
same id returns exactly the original value. -/
theorem conforms_spec {o : Opt} (h : conforms o = true) :
    o.id < 256 ∧ ∃ b, o.toBytes = some b ∧
      (optionDefs o.id).valueFormat ≠ .valueUnknown ∧
      (optionDefs o.id).minLen ≤ b.length ∧ b.length ≤ (optionDefs o.id).maxLen ∧
      parseOptionValue o.id b = some o.val := by
  unfold conforms at h
  simp only [Bool.and_eq_true, decide_eq_true_eq] at h
  obtain ⟨hid, h⟩ := h
  refine ⟨hid, ?_⟩
  cases hf : (optionDefs o.id).valueFormat <;> rw [hf] at h <;> cases hv : o.val <;>
    rw [hv] at h <;> simp only [Bool.and_eq_true, decide_eq_true_eq,
      Bool.or_eq_true, Bool.not_eq_true'] at h
  any_goals contradiction
  case valueEmpty.opaq b =>
    subst h
    have hmin := optionDefs_empty_minLen _ hf
    have hcond : ¬(([] : List Nat).length < (optionDefs o.id).minLen ∨
        (optionDefs o.id).maxLen < ([] : List Nat).length) := by
      simp only [List.length_nil]; omega
    refine ⟨[], by simp [Opt.toBytes, hv], by simp [hf], by omega, by simp, ?_⟩
    simp [parseOptionValue, hf, hcond, hv, hmin]
  case valueOpaque.opaq b =>
    obtain ⟨-, h1, h2⟩ := h
    have hcond : ¬(b.length < (optionDefs o.id).minLen ∨
        (optionDefs o.id).maxLen < b.length) := by omega
    refine ⟨b, by simp [Opt.toBytes, hv], by simp [hf], h1, h2, ?_⟩
    simp [parseOptionValue, hf, hcond, hv]
  case valueString.str s =>
    obtain ⟨-, h1, h2⟩ := h
    have hcond : ¬(s.length < (optionDefs o.id).minLen ∨
        (optionDefs o.id).maxLen < s.length) := by omega
    refine ⟨s, by simp [Opt.toBytes, hv], by simp [hf], h1, h2, ?_⟩
    simp [parseOptionValue, hf, hcond, hv]
  case valueUint.media v =>
    obtain ⟨⟨hid1217, hvlt⟩, h1, h2⟩ := h
    have hm : v % 2 ^ 32 = v := Nat.mod_eq_of_lt (by omega)
    have hcond : ¬((encodeInt v).length < (optionDefs o.id).minLen ∨
        (optionDefs o.id).maxLen < (encodeInt v).length) := by omega
    have hcf : o.id = ContentFormat ∨ o.id = Accept := hid1217
    refine ⟨encodeInt v,
      by simp [Opt.toBytes, hv, Nat.mod_eq_of_lt (show v < 4294967296 by omega)],
      by simp [hf], h1, h2, ?_⟩
    simp [parseOptionValue, hf, hcond, hcf, hv, decodeInt_encodeInt v (by omega)]
  case valueUint.uint v =>
    obtain ⟨⟨hid1217, hvlt⟩, h1, h2⟩ := h
    have hm : v % 2 ^ 32 = v := Nat.mod_eq_of_lt hvlt
    have hcond : ¬((encodeInt v).length < (optionDefs o.id).minLen ∨
        (optionDefs o.id).maxLen < (encodeInt v).length) := by omega
    have hcf : ¬(o.id = ContentFormat ∨ o.id = Accept) := by
      simp only [Bool.or_eq_false_iff, decide_eq_false_iff_not] at hid1217
      exact not_or.mpr hid1217
    refine ⟨encodeInt v,
      by simp [Opt.toBytes, hv, Nat.mod_eq_of_lt (show v < 4294967296 by omega)],
      by simp [hf], h1, h2, ?_⟩
    simp [parseOptionValue, hf, hcond, hcf, hv, decodeInt_encodeInt v hvlt]


theorem sortOpts_perm (opts : List Opt) : (sortOpts opts).Perm opts :=
  List.perm_insertionSort _ opts

theorem sortOpts_sorted (opts : List Opt) :
    List.Sorted (fun a b : Opt => a.id ≤ b.id) (sortOpts opts) :=
  List.sorted_insertionSort _ opts

theorem chain_of_sorted {l : List Opt}
    (h : List.Sorted (fun a b : Opt => a.id ≤ b.id) l) :
    List.Chain (· ≤ ·) 0 (l.map (·.id)) := by
  rw [List.chain_iff_pairwise, List.pairwise_cons]
  refine ⟨fun x _ => Nat.zero_le x, ?_⟩
  rw [List.pairwise_map]
  exact h

theorem optValid_of_conforms {o : Opt} (h : conforms o = true) : optValid o = .ok () := by
  obtain ⟨-, b, hb, -, -, hmax, -⟩ := conforms_spec h
  unfold optValid
  rw [hb]
  simp only [ite_eq_right_iff]
  intro hcontra
  exact absurd hmax (by omega)

theorem validateOpts_of_conforms {l : List Opt} (h : ∀ o ∈ l, conforms o = true) :
    validateOpts l = .ok () := by
  induction l with
  | nil => rfl
  | cons o rest ih =>
    unfold validateOpts
    rw [optValid_of_conforms (h o (by simp))]
    exact ih fun x hx => h x (by simp [hx])

theorem writeOptsLoop_some {l : List Opt} (h : ∀ o ∈ l, conforms o = true) (prev : Int) :
    ∃ bs, writeOptsLoop prev l = some bs := by
  induction l generalizing prev with
  | nil => exact ⟨[], rfl⟩
  | cons o rest ih =>
    obtain ⟨-, b, hb, -⟩ := conforms_spec (h o (by simp))
    obtain ⟨ws, hws⟩ := ih (fun x hx => h x (by simp [hx])) (o.id : Int)
    refine ⟨writeOptHeader ((o.id : Int) - prev) (b.length : Int) ++ b ++ ws, ?_⟩
    unfold writeOptsLoop writeOpt
    rw [hb, hws]

/-- Decoding the byte string written by `writeOpts` for a sorted, conforming
option list, followed by any trailing bytes, consumes exactly those options
and continues on the trailing bytes (from some new running previous id). -/
theorem parseBodyLoop_writeOpts (opts : List Opt) :
    ∀ (prev : Nat) (bs tail : List Nat),
      (∀ o ∈ opts, conforms o = true) →
      List.Chain (· ≤ ·) prev (opts.map (·.id)) →
      prev < 256 →
      writeOptsLoop (prev : Int) opts = some bs →
      ∃ prev2, parseBodyLoop prev (bs ++ tail) =
        Except.map (fun p => (opts ++ p.1, p.2)) (parseBodyLoop prev2 tail) := by
  induction opts with
  | nil =>
    intro prev bs tail hconf hchain hprev hw
    refine ⟨prev, ?_⟩
    cases hw
    cases hr : parseBodyLoop prev tail with
    | error e => simp [Except.map, hr]
    | ok p => simp [Except.map, hr]
  | cons o rest ih =>
    intro prev bs tail hconf hchain hprev hw
    obtain ⟨hid, b, hb, -, -, hmax, hpv⟩ := conforms_spec (hconf o (by simp))
    rw [List.map_cons] at hchain
    cases hchain with
    | cons hpo hchain2 =>
      unfold writeOptsLoop writeOpt at hw
      rw [hb] at hw
      cases hws : writeOptsLoop (o.id : Int) rest with
      | none => rw [hws] at hw; simp at hw
      | some ws =>
        rw [hws] at hw
        simp only [Option.some.injEq] at hw
        subst hw
        obtain ⟨prev2, ih2⟩ := ih o.id ws tail
          (fun x hx => hconf x (by simp [hx])) hchain2 hid hws
        refine ⟨prev2, ?_⟩
        have hcast : (o.id : Int) - (prev : Int) = ((o.id - prev : Nat) : Int) := by
          omega
        have hdle : o.id - prev ≤ 65804 := by omega
        have hble : b.length ≤ 65804 := by
          have := optionDefs_maxLen_le o.id; omega
        rw [hcast, writeOptHeader_eq (o.id - prev) b.length hdle hble]
        have hassoc :
            (((16 * nibbleOf (o.id - prev) + nibbleOf b.length) ::
              (extBytesOf (o.id - prev) ++ extBytesOf b.length)) ++ b ++ ws) ++ tail =
            (16 * nibbleOf (o.id - prev) + nibbleOf b.length) ::
              ((extBytesOf (o.id - prev) ++ extBytesOf b.length) ++ (b ++ (ws ++ tail))) := by
          simp
        rw [hassoc, parseBodyLoop_cons,
          parseBodyStep_encoded prev (o.id - prev) b.length hdle hble b (ws ++ tail) rfl]
        have hoid : (prev + (o.id - prev)) % 256 = o.id := by omega
        rw [hoid, hpv]
        simp only
        rw [ih2]
        cases hr : parseBodyLoop prev2 tail with
        | error e => simp [Except.map, hr]
        | ok p => simp [Except.map, hr]

/-- Decoding the encoded payload region: nothing was written for an empty
payload (so decoding ends with an empty payload), and a non-empty payload
sits after the single `0xFF` marker. -/
theorem parseBodyLoop_payload (prev : Nat) (payload : List Nat) :
    parseBodyLoop prev (if payload = [] then [] else 255 :: payload) = .ok ([], payload) := by
  cases payload with
  | nil => rfl
  | cons x xs =>
    rw [if_neg (by simp : ¬(x :: xs = ([] : List Nat))), parseBodyLoop_cons]
    unfold parseBodyStep
    simp


/-- C1: for every Message whose options conform to the Option Registry (each
option's value has the shape and `[min,max]` length its registry entry
demands), decoding (`parseBody`) the encoding (`encodeBody`) of the message's
options-and-payload region succeeds and yields the same payload and an option
multiset equal as a set to the original, with order renormalized to ascending
id; the header fields type/code/messageID/token lie outside this region and
are therefore carried over unchanged into the decoded message. -/
theorem c1_options_payload_roundtrip (m : MessageBase)
    (hconf : ∀ o ∈ m.opts, conforms o = true) :
    ∃ bs os, encodeBody m.opts m.payload = .ok bs ∧
      parseBody bs = .ok (os, m.payload) ∧
      os.Perm m.opts ∧
      List.Sorted (fun a b : Opt => a.id ≤ b.id) os ∧
      ({ m with opts := os } : MessageBase).typ = m.typ ∧
      ({ m with opts := os } : MessageBase).code = m.code ∧
      ({ m with opts := os } : MessageBase).messageID = m.messageID ∧
      ({ m with opts := os } : MessageBase).token = m.token := by
  have hconfS : ∀ o ∈ sortOpts m.opts, conforms o = true := by
    intro o ho
    exact hconf o ((sortOpts_perm m.opts).mem_iff.mp ho)
  have hva : validateOpts (sortOpts m.opts) = .ok () := validateOpts_of_conforms hconfS
  obtain ⟨obs, hobs⟩ := writeOptsLoop_some hconfS 0
  have hbs : encodeBody m.opts m.payload =
      .ok (obs ++ if m.payload = [] then [] else 255 :: m.payload) := by
    unfold encodeBody writeOpts
    rw [hva, hobs]
  refine ⟨_, sortOpts m.opts, hbs, ?_, sortOpts_perm m.opts, sortOpts_sorted m.opts,
    rfl, rfl, rfl, rfl⟩
  have hw0 : writeOptsLoop ((0 : Nat) : Int) (sortOpts m.opts) = some obs := by
    rw [Nat.cast_zero]; exact hobs
  obtain ⟨prev2, hp⟩ := parseBodyLoop_writeOpts (sortOpts m.opts) 0 obs
    (if m.payload = [] then [] else 255 :: m.payload)
    hconfS (chain_of_sorted (sortOpts_sorted m.opts)) (by omega) hw0
  unfold parseBody
  rw [hp, parseBodyLoop_payload]
  simp [Except.map]

/-- C1 witness: the spec's concrete scenario — options id 11 (path) value
`"a"` and id 15 (query) value `"x=1"` (added out of order), empty token and
payload — encodes and decodes back to the two options in ascending order. -/
theorem c1_options_payload_roundtrip_witness :
    (∀ o ∈ ([⟨15, .str [120, 61, 49]⟩, ⟨11, .str [97]⟩] : List Opt), conforms o = true) ∧
    (∃ bs os,
      encodeBody [⟨15, .str [120, 61, 49]⟩, ⟨11, .str [97]⟩] [] = .ok bs ∧
      parseBody bs = .ok (os, []) ∧
      os.Perm [⟨15, .str [120, 61, 49]⟩, ⟨11, .str [97]⟩] ∧
      List.Sorted (fun a b : Opt => a.id ≤ b.id) os ∧
      ({ typ := 0, code := 1, messageID := 4660, token := [171], payload := [],
         opts := os } : MessageBase).typ = 0) := by
  constructor
  · decide
  · obtain ⟨bs, os, h1, h2, h3, h4, h5, -⟩ :=
      c1_options_payload_roundtrip
        ⟨0, 1, 4660, [171], [], [⟨15, .str [120, 61, 49]⟩, ⟨11, .str [97]⟩]⟩
        (by decide)
    exact ⟨bs, os, h1, h2, h3, h4, rfl⟩


theorem parseBodyStep_nib15 (prev b : Nat) (rest : List Nat) (hb : b ≠ 255)
    (h15 : b / 16 % 16 = 15 ∨ b % 16 = 15) :
    parseBodyStep prev b rest = .error "unexpected extended option marker" := by
  unfold parseBodyStep extoptError
  rw [if_neg hb, if_pos h15]

theorem parseBodyLoop_error {prev b : Nat} {rest : List Nat} {e : String}
    (h : parseBodyStep prev b rest = .error e) :
    parseBodyLoop prev (b :: rest) = .error e := by
  rw [parseBodyLoop_cons, h]

/-- C2: every delta/length value 0–12 is emitted as its own nibble with no
extension; 13–268 as nibble 13 plus one extension byte holding `value - 13`;
269 and above (up to the 65804 the two-byte extension can carry) as nibble 14
plus a two-byte big-endian extension holding `value - 269`; nibble 15 is
never produced; the decoder inverts the encoding exactly on all of 0–65804
(in particular at the boundaries 13, 268 and 269); and a raw header nibble of
15 in either position makes decoding fail. -/
theorem c2_nibble_extension_encoding :
    (∀ v : Nat, v ≤ 12 →
      extendOpt (v : Int) = ((v : Int), 0) ∧ writeExt (v : Int) 0 = []) ∧
    (∀ v : Nat, 13 ≤ v → v ≤ 268 →
      extendOpt (v : Int) = (13, ((v - 13 : Nat) : Int)) ∧
      writeExt 13 ((v - 13 : Nat) : Int) = [v - 13]) ∧
    (∀ v : Nat, 269 ≤ v → v ≤ 65804 →
      extendOpt (v : Int) = (14, ((v - 269 : Nat) : Int)) ∧
      writeExt 14 ((v - 269 : Nat) : Int) = [(v - 269) / 256, (v - 269) % 256]) ∧
    (∀ v : Nat, (extendOpt (v : Int)).1 ≠ 15) ∧
    (∀ v : Nat, v ≤ 65804 → ∀ rest : List Nat,
      parseExtOpt (nibbleOf v) (extBytesOf v ++ rest) = .ok (v, rest)) ∧
    (∀ prev b : Nat, ∀ rest : List Nat, b ≠ 255 → b / 16 % 16 = 15 ∨ b % 16 = 15 →
      parseBodyLoop prev (b :: rest) = .error "unexpected extended option marker") := by
  refine ⟨?_, ?_, ?_, ?_, ?_, ?_⟩
  · intro v hv
    have h1 : nibbleOf v = v := by unfold nibbleOf; split_ifs <;> omega
    have h2 : extOf v = 0 := by unfold extOf; split_ifs <;> omega
    refine ⟨by rw [extendOpt_eq, h1, h2]; rfl, ?_⟩
    have h3 := writeExt_eq v (by omega)
    rw [h1, h2] at h3
    rw [Nat.cast_zero] at h3
    rw [h3]
    unfold extBytesOf
    rw [if_pos (by omega)]
  · intro v hv1 hv2
    have h1 : nibbleOf v = 13 := by unfold nibbleOf; split_ifs <;> omega
    have h2 : extOf v = v - 13 := by unfold extOf; split_ifs <;> omega
    refine ⟨by rw [extendOpt_eq, h1, h2]; rfl, ?_⟩
    have h3 := writeExt_eq v (by omega)
    rw [h1, h2] at h3
    rw [show ((13 : Nat) : Int) = (13 : Int) by norm_num] at h3
    rw [h3]
    unfold extBytesOf
    rw [if_neg (by omega), if_pos (by omega)]
  · intro v hv1 hv2
    have h1 : nibbleOf v = 14 := by unfold nibbleOf; split_ifs <;> omega
    have h2 : extOf v = v - 269 := by unfold extOf; split_ifs <;> omega
    refine ⟨by rw [extendOpt_eq, h1, h2]; rfl, ?_⟩
    have h3 := writeExt_eq v (by omega)
    rw [h1, h2] at h3
    rw [show ((14 : Nat) : Int) = (14 : Int) by norm_num] at h3
    rw [h3]
    unfold extBytesOf
    rw [if_neg (by omega), if_neg (by omega)]
  · intro v
    rw [extendOpt_eq]
    have := nibbleOf_le v
    simp only [Prod.fst]
    omega
  · exact fun v hv rest => parseExtOpt_extBytes v hv rest
  · exact fun prev b rest hb h15 => parseBodyLoop_error (parseBodyStep_nib15 prev b rest hb h15)

/-- C2 witness: the boundary values 13, 268 and 269 and a nibble-15 header
byte, all at concrete inputs. -/
theorem c2_nibble_extension_encoding_witness :
    (extendOpt ((13 : Nat) : Int) = (13, ((13 - 13 : Nat) : Int)) ∧
      writeExt 13 ((13 - 13 : Nat) : Int) = [13 - 13]) ∧
    (extendOpt ((268 : Nat) : Int) = (13, ((268 - 13 : Nat) : Int)) ∧
      writeExt 13 ((268 - 13 : Nat) : Int) = [268 - 13]) ∧
    (extendOpt ((269 : Nat) : Int) = (14, ((269 - 269 : Nat) : Int)) ∧
      writeExt 14 ((269 - 269 : Nat) : Int) = [(269 - 269) / 256, (269 - 269) % 256]) ∧
    (extendOpt ((5 : Nat) : Int)).1 ≠ 15 ∧
    parseExtOpt (nibbleOf 268) (extBytesOf 268 ++ [9]) = .ok (268, [9]) ∧
    parseBodyLoop 0 [0x1F, 0] = .error "unexpected extended option marker" := by
  have c := c2_nibble_extension_encoding
  exact ⟨c.2.1 13 (by decide) (by decide), c.2.1 268 (by decide) (by decide),
    c.2.2.1 269 (by decide) (by decide), c.2.2.2.1 5, c.2.2.2.2.1 268 (by decide) [9],
    c.2.2.2.2.2 0 0x1F [0] (by decide) (by decide)⟩


theorem parseExtOpt_truncated (opt : Nat) (data : List Nat)
    (h : opt = 13 ∧ data = [] ∨ opt = 14 ∧ data.length < 2) :
    parseExtOpt opt data = .error "truncated" := by
  unfold parseExtOpt
  rcases h with ⟨h1, h2⟩ | ⟨h1, h2⟩
  · subst h1; subst h2; rfl
  · subst h1
    rw [if_neg (by omega), if_pos rfl]
    cases data with
    | nil => rfl
    | cons x xs =>
      cases xs with
      | nil => rfl
      | cons y ys => simp at h2; omega

theorem parseBodyStep_ext1_error {prev b : Nat} {rest : List Nat} {e : String}
    (hb : b ≠ 255) (h15 : ¬(b / 16 % 16 = 15 ∨ b % 16 = 15))
    (h1 : parseExtOpt (b / 16 % 16) rest = .error e) :
    parseBodyStep prev b rest = .error e := by
  unfold parseBodyStep extoptError
  rw [if_neg hb, if_neg h15, h1]

theorem parseBodyStep_ext2_error {prev b delta : Nat} {rest rest1 : List Nat} {e : String}
    (hb : b ≠ 255) (h15 : ¬(b / 16 % 16 = 15 ∨ b % 16 = 15))
    (h1 : parseExtOpt (b / 16 % 16) rest = .ok (delta, rest1))
    (h2 : parseExtOpt (b % 16) rest1 = .error e) :
    parseBodyStep prev b rest = .error e := by
  unfold parseBodyStep extoptError
  rw [if_neg hb, if_neg h15, h1]
  simp only
  rw [h2]

theorem parseBodyStep_value_truncated {prev b delta length : Nat}
    {rest rest1 rest2 : List Nat}
    (hb : b ≠ 255) (h15 : ¬(b / 16 % 16 = 15 ∨ b % 16 = 15))
    (h1 : parseExtOpt (b / 16 % 16) rest = .ok (delta, rest1))
    (h2 : parseExtOpt (b % 16) rest1 = .ok (length, rest2))
    (hlen : rest2.length < length) :
    parseBodyStep prev b rest = .error "truncated" := by
  unfold parseBodyStep extoptError
  rw [if_neg hb, if_neg h15, h1]
  simp only
  rw [h2]
  simp only
  rw [if_pos hlen]

theorem parseBodyStep_opt {prev b delta length : Nat} {rest rest1 rest2 : List Nat}
    (hb : b ≠ 255) (h15 : ¬(b / 16 % 16 = 15 ∨ b % 16 = 15))
    (h1 : parseExtOpt (b / 16 % 16) rest = .ok (delta, rest1))
    (h2 : parseExtOpt (b % 16) rest1 = .ok (length, rest2))
    (hlen : ¬(rest2.length < length)) :
    parseBodyStep prev b rest =
      .ok (.opt ((prev + delta) % 256)
        (parseOptionValue ((prev + delta) % 256) (rest2.take length))
        (rest2.drop length)) := by
  unfold parseBodyStep extoptError
  rw [if_neg hb, if_neg h15, h1]
  simp only
  rw [h2]
  simp only
  rw [if_neg hlen]

/-- C3: decoding the options-and-payload region returns a hard error — and,
the result being an `Except.error`, no partial message — whenever (i) an
option header carries nibble value 15 in the delta or the length position,
(ii) a declared one-byte (nibble 13) or two-byte (nibble 14) extension is
truncated by end of input (the resulting `"truncated"` error propagates from
either extension position), or (iii) the declared option value length
exceeds the bytes remaining. -/
theorem c3_decode_hard_errors :
    (∀ prev b : Nat, ∀ rest : List Nat, b ≠ 255 → (b / 16 % 16 = 15 ∨ b % 16 = 15) →
      parseBodyLoop prev (b :: rest) = .error "unexpected extended option marker") ∧
    (∀ opt : Nat, ∀ data : List Nat,
      opt = 13 ∧ data = [] ∨ opt = 14 ∧ data.length < 2 →
      parseExtOpt opt data = .error "truncated") ∧
    (∀ prev b : Nat, ∀ rest : List Nat, ∀ e : String,
      b ≠ 255 → ¬(b / 16 % 16 = 15 ∨ b % 16 = 15) →
      parseExtOpt (b / 16 % 16) rest = .error e →
      parseBodyLoop prev (b :: rest) = .error e) ∧
    (∀ prev b delta : Nat, ∀ rest rest1 : List Nat, ∀ e : String,
      b ≠ 255 → ¬(b / 16 % 16 = 15 ∨ b % 16 = 15) →
      parseExtOpt (b / 16 % 16) rest = .ok (delta, rest1) →
      parseExtOpt (b % 16) rest1 = .error e →
      parseBodyLoop prev (b :: rest) = .error e) ∧
    (∀ prev b delta length : Nat, ∀ rest rest1 rest2 : List Nat,
      b ≠ 255 → ¬(b / 16 % 16 = 15 ∨ b % 16 = 15) →
      parseExtOpt (b / 16 % 16) rest = .ok (delta, rest1) →
      parseExtOpt (b % 16) rest1 = .ok (length, rest2) →
      rest2.length < length →
      parseBodyLoop prev (b :: rest) = .error "truncated") := by
  refine ⟨?_, ?_, ?_, ?_, ?_⟩
  · exact fun prev b rest hb h15 =>
      parseBodyLoop_error (parseBodyStep_nib15 prev b rest hb h15)
  · exact parseExtOpt_truncated
  · exact fun prev b rest e hb h15 h1 =>
      parseBodyLoop_error (parseBodyStep_ext1_error hb h15 h1)
  · exact fun prev b delta rest rest1 e hb h15 h1 h2 =>
      parseBodyLoop_error (parseBodyStep_ext2_error hb h15 h1 h2)
  · exact fun prev b delta length rest rest1 rest2 hb h15 h1 h2 hlen =>
      parseBodyLoop_error (parseBodyStep_value_truncated hb h15 h1 h2 hlen)

/-- C3 witness: concrete malformed inputs — a delta nibble of 15, a length
nibble of 15, a truncated one-byte extension, a truncated two-byte extension
and a truncated option value. -/
theorem c3_decode_hard_errors_witness :
    parseBodyLoop 0 [0xF1, 0] = .error "unexpected extended option marker" ∧
    parseExtOpt 13 [] = .error "truncated" ∧
    parseBodyLoop 0 [0xD1] = .error "truncated" ∧
    parseBodyLoop 0 [0x1E, 0] = .error "truncated" ∧
    parseBodyLoop 0 [0x13, 1, 2] = .error "truncated" := by
  have c := c3_decode_hard_errors
  exact ⟨c.1 0 0xF1 [0] (by decide) (by decide),
    c.2.1 13 [] (by decide),
    c.2.2.1 0 0xD1 [] "truncated" (by decide) (by decide) (by decide),
    c.2.2.2.1 0 0x1E 1 [0] [0] "truncated" (by decide) (by decide) (by decide) (by decide),
    c.2.2.2.2 0 0x13 1 3 [1, 2] [1, 2] [1, 2] (by decide) (by decide) (by decide) (by decide)
      (by decide)⟩


/-- C4: an option whose id has no Option Registry entry, or whose value
length lies outside that entry's `[min,max]` bound, is parsed to `none` and
silently dropped: the loop simply continues on the remaining bytes (so every
other well-formed option and the payload are still returned), as the two
concrete frames show — one with an unrecognized option id 2, one with an
oversized ETag (9 bytes against a maximum of 8), each followed by a URI-Path
option and a payload that are decoded normally. -/
theorem c4_unknown_or_oversize_dropped :
    (∀ oid : Nat, ∀ buf : List Nat,
      (optionDefs oid).valueFormat = .valueUnknown ∨
        buf.length < (optionDefs oid).minLen ∨ (optionDefs oid).maxLen < buf.length →
      parseOptionValue oid buf = none) ∧
    (∀ prev b delta length : Nat, ∀ rest rest1 rest2 : List Nat,
      b ≠ 255 → ¬(b / 16 % 16 = 15 ∨ b % 16 = 15) →
      parseExtOpt (b / 16 % 16) rest = .ok (delta, rest1) →
      parseExtOpt (b % 16) rest1 = .ok (length, rest2) →
      ¬(rest2.length < length) →
      parseOptionValue ((prev + delta) % 256) (rest2.take length) = none →
      parseBodyLoop prev (b :: rest) = parseBodyLoop ((prev + delta) % 256) (rest2.drop length)) ∧
    parseBody [0x21, 0, 0x91, 97, 255, 1, 2] = .ok ([⟨11, .str [97]⟩], [1, 2]) ∧
    parseBody (0x49 :: (List.replicate 9 7 ++ [0x71, 97, 255, 3])) =
      .ok ([⟨11, .str [97]⟩], [3]) := by
  refine ⟨?_, ?_, by decide, by decide⟩
  · intro oid buf h
    simp only [parseOptionValue]
    rcases h with h | h
    · rw [if_pos h]
    · by_cases h1 : (optionDefs oid).valueFormat = valueFormat.valueUnknown
      · rw [if_pos h1]
      · rw [if_neg h1, if_pos h]
  · intro prev b delta length rest rest1 rest2 hb h15 h1 h2 hlen hpv
    rw [parseBodyLoop_cons, parseBodyStep_opt hb h15 h1 h2 hlen, hpv]

/-- C4 witness: the skip-step applied at a concrete dropped option (unknown
id 2, delta 2 and length 1 under a running previous id 0). -/
theorem c4_unknown_or_oversize_dropped_witness :
    parseOptionValue 2 [0] = none ∧
    parseBodyLoop 0 [0x21, 0, 0x91, 97] = parseBodyLoop 2 [0x91, 97] := by
  have c := c4_unknown_or_oversize_dropped
  exact ⟨c.1 2 [0] (by decide),
    c.2.1 0 0x21 2 1 [0, 0x91, 97] [0, 0x91, 97] [0, 0x91, 97] (by decide) (by decide)
      (by decide) (by decide) (by decide) (by decide)⟩

/-- C10: during decoding, an option that is dropped (unknown registry id or
out-of-range value length) still advances the running previous-id base
exactly like a kept option: one parsing step always yields the id
`(prev + delta) % 256` and continues the loop from that id, whether the
parsed value is `none` (option dropped) or `some` (option kept) — so later
options decode to the same ids either way, as the two concrete frames show
(the same URI-Path option reached through a dropped id-2 option at delta
2 + 9, and directly at delta 11). -/
theorem c10_dropped_option_advances_base :
    (∀ prev b delta length : Nat, ∀ rest rest1 rest2 : List Nat,
      b ≠ 255 → ¬(b / 16 % 16 = 15 ∨ b % 16 = 15) →
      parseExtOpt (b / 16 % 16) rest = .ok (delta, rest1) →
      parseExtOpt (b % 16) rest1 = .ok (length, rest2) →
      ¬(rest2.length < length) →
      parseBodyStep prev b rest =
        .ok (.opt ((prev + delta) % 256)
          (parseOptionValue ((prev + delta) % 256) (rest2.take length))
          (rest2.drop length)) ∧
      (parseOptionValue ((prev + delta) % 256) (rest2.take length) = none →
        parseBodyLoop prev (b :: rest) =
          parseBodyLoop ((prev + delta) % 256) (rest2.drop length)) ∧
      (∀ v : OptVal, parseOptionValue ((prev + delta) % 256) (rest2.take length) = some v →
        parseBodyLoop prev (b :: rest) =
          Except.map (fun p => (⟨(prev + delta) % 256, v⟩ :: p.1, p.2))
            (parseBodyLoop ((prev + delta) % 256) (rest2.drop length)))) ∧
    (parseBody [0x21, 0, 0x91, 97]).map (fun p => p.1.map (·.id)) = .ok [11] ∧
    (parseBody [0xB1, 97]).map (fun p => p.1.map (·.id)) = .ok [11] := by
  refine ⟨?_, by decide, by decide⟩
  intro prev b delta length rest rest1 rest2 hb h15 h1 h2 hlen
  refine ⟨parseBodyStep_opt hb h15 h1 h2 hlen, ?_, ?_⟩
  · intro hpv
    rw [parseBodyLoop_cons, parseBodyStep_opt hb h15 h1 h2 hlen, hpv]
  · intro v hpv
    rw [parseBodyLoop_cons, parseBodyStep_opt hb h15 h1 h2 hlen, hpv]
    simp only
    cases hr : parseBodyLoop ((prev + delta) % 256) (rest2.drop length) with
    | error e => simp [Except.map]
    | ok p => simp [Except.map]

/-- C10 witness: both branches of the step at concrete inputs — the dropped
id-2 option advances the base to 2, and the kept URI-Path option advances it
to 11. -/
theorem c10_dropped_option_advances_base_witness :
    parseBodyStep 0 0x21 [0, 0x91, 97] =
      .ok (.opt 2 (parseOptionValue 2 [0]) [0x91, 97]) ∧
    parseBodyLoop 2 [0x91, 97] =
      Except.map (fun p => (⟨11, .str [97]⟩ :: p.1, p.2)) (parseBodyLoop 11 []) := by
  have c := c10_dropped_option_advances_base
  constructor
  · have h := (c.1 0 0x21 2 1 [0, 0x91, 97] [0, 0x91, 97] [0, 0x91, 97] (by decide) (by decide)
      (by decide) (by decide) (by decide)).1
    exact h
  · have h := (c.1 2 0x91 9 1 [97] [97] [97] (by decide) (by decide)
      (by decide) (by decide) (by decide)).2.2 (.str [97]) (by decide)
    exact h


theorem writeOptsLoop_eq_zip (l : List Opt) :
    ∀ prev : Int, writeOptsLoop prev l = zipWriteOpts (l.zip (deltasFrom prev l)) := by
  induction l with
  | nil => intro prev; rfl
  | cons o rest ih =>
    intro prev
    show writeOptsLoop prev (o :: rest) =
      zipWriteOpts ((o, (o.id : Int) - prev) :: rest.zip (deltasFrom (o.id : Int) rest))
    unfold writeOptsLoop zipWriteOpts
    rw [ih (o.id : Int)]

theorem deltasFrom_nonneg {l : List Opt} :
    ∀ {p : Nat}, List.Chain (· ≤ ·) p (l.map (·.id)) →
      ∀ d ∈ deltasFrom (p : Int) l, 0 ≤ d := by
  induction l with
  | nil => intro p _ d hd; cases hd
  | cons o rest ih =>
    intro p hchain d hd
    rw [List.map_cons] at hchain
    cases hchain with
    | cons hpo hchain2 =>
      unfold deltasFrom at hd
      rw [List.mem_cons] at hd
      rcases hd with hd | hd
      · subst hd; omega
      · exact ih hchain2 d hd

/-- C5: the encoder writes the options in ascending numeric-id order (the
caller's list is stably sorted by id first, whatever order the options were
added in), and each option's header delta is `currentID - previousID` with
`previousID` starting at 0 — in particular every one of these deltas is
non-negative. -/
theorem c5_sorted_nonneg_deltas (opts : List Opt) (payload bs : List Nat)
    (henc : encodeBody opts payload = .ok bs) :
    List.Sorted (fun a b : Opt => a.id ≤ b.id) (sortOpts opts) ∧
    (sortOpts opts).Perm opts ∧
    (∀ d ∈ deltasFrom 0 (sortOpts opts), 0 ≤ d) ∧
    ∃ obs, zipWriteOpts ((sortOpts opts).zip (deltasFrom 0 (sortOpts opts))) = some obs ∧
      bs = obs ++ (if payload = [] then [] else 255 :: payload) := by
  refine ⟨sortOpts_sorted opts, sortOpts_perm opts, ?_, ?_⟩
  · have h0 : ((0 : Nat) : Int) = (0 : Int) := by norm_num
    rw [← h0]
    exact deltasFrom_nonneg (chain_of_sorted (sortOpts_sorted opts))
  · unfold encodeBody at henc
    cases hva : validateOpts (sortOpts opts) with
    | error e => rw [hva] at henc; simp at henc
    | ok u =>
      rw [hva] at henc
      simp only at henc
      cases hw : writeOpts (sortOpts opts) with
      | none => rw [hw] at henc; simp at henc
      | some obs =>
        rw [hw] at henc
        simp only [Except.ok.injEq] at henc
        refine ⟨obs, ?_, henc.symm⟩
        rw [← writeOptsLoop_eq_zip]
        exact hw

/-- C5 witness: options added out of order (query id 15 before path id 11)
still encode sorted with non-negative deltas 11 and 4. -/
theorem c5_sorted_nonneg_deltas_witness :
    encodeBody [⟨15, .str [120]⟩, ⟨11, .str [97]⟩] [] = .ok [177, 97, 65, 120] ∧
    (List.Sorted (fun a b : Opt => a.id ≤ b.id)
        (sortOpts [⟨15, .str [120]⟩, ⟨11, .str [97]⟩]) ∧
      (sortOpts [⟨15, .str [120]⟩, ⟨11, .str [97]⟩]).Perm [⟨15, .str [120]⟩, ⟨11, .str [97]⟩] ∧
      (∀ d ∈ deltasFrom 0 (sortOpts [⟨15, .str [120]⟩, ⟨11, .str [97]⟩]), 0 ≤ d) ∧
      ∃ obs, zipWriteOpts ((sortOpts [⟨15, .str [120]⟩, ⟨11, .str [97]⟩]).zip
          (deltasFrom 0 (sortOpts [⟨15, .str [120]⟩, ⟨11, .str [97]⟩]))) = some obs ∧
        [177, 97, 65, 120] = obs ++
          (if ([] : List Nat) = [] then [] else 255 :: ([] : List Nat))) :=
  ⟨by decide,
    c5_sorted_nonneg_deltas [⟨15, .str [120]⟩, ⟨11, .str [97]⟩] [] [177, 97, 65, 120]
      (by decide)⟩


theorem optValid_invalid {o : Opt} (h : o.toBytes = none) :
    optValid o = .error .invalidOptionType := by
  unfold optValid
  rw [h]

theorem optValid_tooLong {o : Opt} {b : List Nat} (h : o.toBytes = some b)
    (hk : (optionDefs o.id).valueFormat ≠ .valueUnknown)
    (hl : (optionDefs o.id).maxLen < b.length) :
    optValid o = .error .optionTooLong := by
  unfold optValid
  rw [h]
  simp only
  rw [if_pos ⟨hk, hl⟩]

theorem optValid_cases_of_validType {o : Opt} (h : o.toBytes ≠ none) :
    optValid o = .ok () ∨ optValid o = .error .optionTooLong := by
  unfold optValid
  cases hb : o.toBytes with
  | none => exact absurd hb h
  | some b => simp only; split_ifs <;> simp

theorem optValid_cases_of_notTooLong {o : Opt}
    (h : ∀ b, o.toBytes = some b →
      ¬((optionDefs o.id).valueFormat ≠ .valueUnknown ∧ (optionDefs o.id).maxLen < b.length)) :
    optValid o = .ok () ∨ optValid o = .error .invalidOptionType := by
  unfold optValid
  cases hb : o.toBytes with
  | none => simp
  | some b => simp only; rw [if_neg (h b hb)]; simp

theorem validateOpts_first_error {l : List Opt} (X : EncErr)
    (hall : ∀ o ∈ l, optValid o = .ok () ∨ optValid o = .error X)
    (hsome : ∃ o ∈ l, optValid o = .error X) :
    validateOpts l = .error X := by
  induction l with
  | nil => obtain ⟨o, ho, -⟩ := hsome; cases ho
  | cons o rest ih =>
    unfold validateOpts
    rcases hall o (by simp) with ho | ho
    · rw [ho]
      refine ih (fun x hx => hall x (by simp [hx])) ?_
      obtain ⟨w, hw, hwe⟩ := hsome
      rw [List.mem_cons] at hw
      rcases hw with hw | hw
      · subst hw; rw [ho] at hwe; cases hwe
      · exact ⟨w, hw, hwe⟩
    · rw [ho]

theorem validateOpts_ne_ok {l : List Opt}
    (hsome : ∃ o ∈ l, optValid o ≠ .ok ()) : validateOpts l ≠ .ok () := by
  induction l with
  | nil => obtain ⟨o, ho, -⟩ := hsome; cases ho
  | cons o rest ih =>
    unfold validateOpts
    cases ho : optValid o with
    | error e => simp
    | ok u =>
      refine ih ?_
      obtain ⟨w, hw, hwe⟩ := hsome
      rw [List.mem_cons] at hw
      rcases hw with hw | hw
      · subst hw; rw [ho] at hwe; exact absurd rfl hwe
      · exact ⟨w, hw, hwe⟩

/-- C6: encoding fails synchronously with `OptionTooLong` when some option's
encoded value length exceeds its registry entry's max bound (all value types
being encodable), fails synchronously with `InvalidOptionType` when some
option's value has a type the codec cannot map to text/bytes/integer (no
option being over-long), and more generally never silently drops either
condition: under either condition the encoder returns no byte string. -/
theorem c6_encode_errors_surfaced :
    (∀ opts : List Opt, ∀ payload : List Nat,
      (∀ o ∈ opts, o.toBytes ≠ none) →
      (∃ o ∈ opts, ∃ b, o.toBytes = some b ∧
        (optionDefs o.id).valueFormat ≠ .valueUnknown ∧ (optionDefs o.id).maxLen < b.length) →
      encodeBody opts payload = .error .optionTooLong) ∧
    (∀ opts : List Opt, ∀ payload : List Nat,
      (∀ o ∈ opts, ∀ b, o.toBytes = some b →
        ¬((optionDefs o.id).valueFormat ≠ .valueUnknown ∧
          (optionDefs o.id).maxLen < b.length)) →
      (∃ o ∈ opts, o.toBytes = none) →
      encodeBody opts payload = .error .invalidOptionType) ∧
    (∀ opts : List Opt, ∀ payload bs : List Nat,
      (∃ o ∈ opts, o.toBytes = none ∨ ∃ b, o.toBytes = some b ∧
        (optionDefs o.id).valueFormat ≠ .valueUnknown ∧ (optionDefs o.id).maxLen < b.length) →
      encodeBody opts payload ≠ .ok bs) := by
  refine ⟨?_, ?_, ?_⟩
  · intro opts payload hall hsome
    have hva : validateOpts (sortOpts opts) = .error .optionTooLong := by
      refine validateOpts_first_error _ ?_ ?_
      · intro o ho
        exact optValid_cases_of_validType (hall o ((sortOpts_perm opts).mem_iff.mp ho))
      · obtain ⟨o, ho, b, hb, hk, hl⟩ := hsome
        exact ⟨o, (sortOpts_perm opts).mem_iff.mpr ho, optValid_tooLong hb hk hl⟩
    unfold encodeBody
    rw [hva]
  · intro opts payload hall hsome
    have hva : validateOpts (sortOpts opts) = .error .invalidOptionType := by
      refine validateOpts_first_error _ ?_ ?_
      · intro o ho
        exact optValid_cases_of_notTooLong (hall o ((sortOpts_perm opts).mem_iff.mp ho))
      · obtain ⟨o, ho, hb⟩ := hsome
        exact ⟨o, (sortOpts_perm opts).mem_iff.mpr ho, optValid_invalid hb⟩
    unfold encodeBody
    rw [hva]
  · intro opts payload bs hsome henc
    have hne : validateOpts (sortOpts opts) ≠ .ok () := by
      refine validateOpts_ne_ok ?_
      obtain ⟨o, ho, hcase⟩ := hsome
      refine ⟨o, (sortOpts_perm opts).mem_iff.mpr ho, ?_⟩
      rcases hcase with hb | ⟨b, hb, hk, hl⟩
      · rw [optValid_invalid hb]; simp
      · rw [optValid_tooLong hb hk hl]; simp
    unfold encodeBody at henc
    cases hva : validateOpts (sortOpts opts) with
    | error e => rw [hva] at henc; cases henc
    | ok u => exact hne hva

/-- C6 witness: a 9-byte ETag (registry maximum 8) yields `OptionTooLong`; a
value of unmappable type yields `InvalidOptionType`; neither message
encodes. -/
theorem c6_encode_errors_surfaced_witness :
    encodeBody [⟨4, .opaq [0, 0, 0, 0, 0, 0, 0, 0, 0]⟩] [] = .error .optionTooLong ∧
    encodeBody [⟨4, .invalid⟩] [] = .error .invalidOptionType ∧
    encodeBody [⟨4, .invalid⟩] [7] ≠ .ok [7] := by
  have c := c6_encode_errors_surfaced
  refine ⟨?_, ?_, ?_⟩
  · exact c.1 [⟨4, .opaq [0, 0, 0, 0, 0, 0, 0, 0, 0]⟩] [] (by decide)
      ⟨⟨4, .opaq [0, 0, 0, 0, 0, 0, 0, 0, 0]⟩, by decide, [0, 0, 0, 0, 0, 0, 0, 0, 0],
        by decide, by decide, by decide⟩
  · exact c.2.1 [⟨4, .invalid⟩] [] (by decide) ⟨⟨4, .invalid⟩, by decide, by decide⟩
  · exact c.2.2 [⟨4, .invalid⟩] [7] [7] ⟨⟨4, .invalid⟩, by decide, Or.inl (by decide)⟩

end Coap

/-! ## Lemmas about the serial frame transport -/

namespace Nmserial

open Base64

theorem base64Encode_length_mod4 (l : List Nat) : (base64Encode l).length % 4 = 0 := by
  match l with
  | [] => rfl
  | [a] => simp [base64Encode]
  | [a, b] => simp [base64Encode]
  | a :: b :: c :: rest =>
    have ih := base64Encode_length_mod4 rest
    simp only [base64Encode, List.length_cons]
    omega

theorem base64Encode_ne_nil {l : List Nat} (h : l ≠ []) : base64Encode l ≠ [] := by
  match l with
  | [] => exact absurd rfl h
  | [a] => simp [base64Encode]
  | [a, b] => simp [base64Encode]
  | a :: b :: c :: rest => simp [base64Encode]

theorem chunksOfAux_congr :
    ∀ {f1 f2 n : Nat} {l : List Nat}, 1 ≤ n → l.length ≤ f1 → l.length ≤ f2 →
      chunksOfAux f1 n l = chunksOfAux f2 n l := by
  intro f1
  induction f1 with
  | zero =>
    intro f2 n l hn h1 h2
    have : l = [] := by cases l with | nil => rfl | cons x xs => simp at h1
    subst this
    cases f2 <;> rfl
  | succ f ih =>
    intro f2 n l hn h1 h2
    cases l with
    | nil => cases f2 <;> rfl
    | cons b rest =>
      cases f2 with
      | zero => simp at h2
      | succ f2 =>
        simp only [chunksOfAux]
        rw [@ih f2 n ((b :: rest).drop n) hn
          (by simp at h1 ⊢; omega) (by simp at h2 ⊢; omega)]

theorem chunksOfAux_flatten :
    ∀ {fuel n : Nat} {l : List Nat}, 1 ≤ n → l.length ≤ fuel →
      (chunksOfAux fuel n l).flatten = l := by
  intro fuel
  induction fuel with
  | zero =>
    intro n l hn h1
    have : l = [] := by cases l with | nil => rfl | cons x xs => simp at h1
    subst this; rfl
  | succ f ih =>
    intro n l hn h1
    cases l with
    | nil => rfl
    | cons b rest =>
      simp only [chunksOfAux, List.flatten]
      rw [@ih n ((b :: rest).drop n) hn (by simp at h1 ⊢; omega)]
      exact List.take_append_drop n (b :: rest)

theorem chunksOfAux_mem :
    ∀ {fuel n : Nat} {l ch : List Nat}, 1 ≤ n → l.length ≤ fuel →
      ch ∈ chunksOfAux fuel n l →
      0 < ch.length ∧ ch.length ≤ n ∧ (n % 4 = 0 → l.length % 4 = 0 → ch.length % 4 = 0) := by
  intro fuel
  induction fuel with
  | zero =>
    intro n l ch hn h1 hch
    have : l = [] := by cases l with | nil => rfl | cons x xs => simp at h1
    subst this; cases hch
  | succ f ih =>
    intro n l ch hn h1 hch
    cases l with
    | nil => cases hch
    | cons b rest =>
      simp only [chunksOfAux, List.mem_cons] at hch
      rcases hch with hch | hch
      · subst hch
        have hlen : ((b :: rest).take n).length = min n (b :: rest).length := by simp
        refine ⟨by rw [hlen]; simp; omega, by rw [hlen]; omega, ?_⟩
        intro h4n h4l
        rw [hlen]
        simp only [List.length_cons] at h4l ⊢
        omega
      · have hrec := @ih n ((b :: rest).drop n) ch hn (by simp at h1 ⊢; omega) hch
        refine ⟨hrec.1, hrec.2.1, ?_⟩
        intro h4n h4l
        refine hrec.2.2 h4n ?_
        simp only [List.length_drop, List.length_cons] at h4l ⊢
        omega

theorem txChunksAux_false :
    ∀ {fuel : Nat} {l : List Nat}, l.length ≤ fuel →
      txChunksAux fuel false l =
        ((chunksOfAux fuel 124 l).map (fun ch => [4, 20] ++ ch ++ [10])).flatten := by
  intro fuel
  induction fuel with
  | zero =>
    intro l h1
    have : l = [] := by cases l with | nil => rfl | cons x xs => simp at h1
    subst this; rfl
  | succ f ih =>
    intro l h1
    cases l with
    | nil => rfl
    | cons b rest =>
      simp only [txChunksAux, chunksOfAux, List.map_cons, List.flatten]
      rw [@ih ((b :: rest).drop 124) (by simp at h1 ⊢; omega)]
      simp [List.append_assoc]

theorem txChunksAux_true {fuel : Nat} {l : List Nat} (h : l.length ≤ fuel) :
    txChunksAux fuel true l =
      match chunksOfAux fuel 124 l with
      | [] => []
      | c0 :: cs =>
        ([6, 9] ++ c0 ++ [10]) ++ (cs.map (fun ch => [4, 20] ++ ch ++ [10])).flatten := by
  cases l with
  | nil => cases fuel <;> rfl
  | cons b rest =>
    cases fuel with
    | zero => simp at h
    | succ f =>
      simp only [txChunksAux, chunksOfAux]
      rw [@txChunksAux_false f ((b :: rest).drop 124) (by simp at h ⊢; omega)]
      simp [List.append_assoc]

/-- C7: serial `Tx` produces exactly the base64 encoding of
`length(2, BE) | payload | checksum(2, BE)` — the 16-bit checksum of the
payload appended, then the 16-bit big-endian length of that checksummed
buffer prepended — written in bursts of at most 124 encoded bytes (each
burst's length positive and a multiple of 4, so no base64 quantum is split),
the first burst prefixed by the start marker `{6, 9}`, every later burst by
the continuation marker `{4, 20}`, and every burst terminated by a newline
(10). -/
theorem c7_serial_tx_framing (crc16 : List Nat → Nat) (payload : List Nat) :
    ∃ c0 cs,
      txFrame crc16 payload =
        [(payload.length + 2) % 65536 / 256, (payload.length + 2) % 65536 % 256] ++
          (payload ++ [crc16 payload / 256 % 256, crc16 payload % 256]) ∧
      chunksOf 124 (base64Encode (txFrame crc16 payload)) = c0 :: cs ∧
      (c0 :: cs).flatten = base64Encode (txFrame crc16 payload) ∧
      Tx crc16 payload =
        ([6, 9] ++ c0 ++ [10]) ++ (cs.map (fun ch => [4, 20] ++ ch ++ [10])).flatten ∧
      (∀ ch ∈ c0 :: cs, 0 < ch.length ∧ ch.length ≤ 124 ∧ ch.length % 4 = 0) := by
  have hframe : txFrame crc16 payload =
      [(payload.length + 2) % 65536 / 256, (payload.length + 2) % 65536 % 256] ++
        (payload ++ [crc16 payload / 256 % 256, crc16 payload % 256]) := by
    unfold txFrame
    simp
  have hne : base64Encode (txFrame crc16 payload) ≠ [] := by
    refine base64Encode_ne_nil ?_
    rw [hframe]
    simp
  obtain ⟨e0, es, henc⟩ : ∃ e0 es, base64Encode (txFrame crc16 payload) = e0 :: es := by
    cases he : base64Encode (txFrame crc16 payload) with
    | nil => exact absurd he hne
    | cons e0 es => exact ⟨e0, es, rfl⟩
  have hchunks : chunksOf 124 (base64Encode (txFrame crc16 payload)) =
      (e0 :: es).take 124 :: chunksOfAux es.length 124 ((e0 :: es).drop 124) := by
    unfold chunksOf
    rw [henc]
    simp only [List.length_cons, chunksOfAux]
  refine ⟨(e0 :: es).take 124, chunksOfAux es.length 124 ((e0 :: es).drop 124),
    hframe, hchunks, ?_, ?_, ?_⟩
  · rw [← hchunks]
    exact chunksOfAux_flatten (by omega) (Nat.le_refl _)
  · show txChunks true (base64Encode (txFrame crc16 payload)) = _
    unfold txChunks
    rw [txChunksAux_true (Nat.le_refl _)]
    unfold chunksOf at hchunks
    rw [hchunks]
  · intro ch hch
    rw [← hchunks] at hch
    have hm := chunksOfAux_mem (by omega) (Nat.le_refl (base64Encode (txFrame crc16 payload)).length) hch
    exact ⟨hm.1, hm.2.1, hm.2.2 (by omega) (base64Encode_length_mod4 _)⟩


theorem rxFeed_crc_error {crc16 : List Nat → Nat} {p p2 : Packet} {data : List Nat}
    (hadd : p.addBytes data = (p2, true)) (hcrc : crc16 p2.buffer ≠ 0) :
    rxFeed crc16 (some p) data = (some p2, .err "CRC error") := by
  unfold rxFeed
  simp only
  rw [hadd]
  simp [hcrc]

theorem addBytes_of_full {p : Packet} (h : p.expectedLen ≤ p.buffer.length)
    (data : List Nat) : p.addBytes data = (p, true) := by
  unfold Packet.addBytes
  have h0 : p.expectedLen - p.buffer.length = 0 := by omega
  rw [h0]
  simp [h]

theorem rxLine_nonstart {crc16 : List Nat → Nat} {p2 : Packet} {line : List Nat}
    (hfull : p2.expectedLen ≤ p2.buffer.length) (hcrc : crc16 p2.buffer ≠ 0)
    (hns : isStartLine line = false) :
    ∃ out, rxLine crc16 (some p2) line = (some p2, out) ∧ ∀ b, out ≠ RxOut.frame b := by
  unfold isStartLine at hns
  unfold rxLine
  cases hl : stripCR line with
  | nil => exact ⟨.cont, rfl, by simp⟩
  | cons a tl =>
    cases tl with
    | nil => exact ⟨.cont, rfl, by simp⟩
    | cons b rest =>
      rw [hl] at hns
      simp only
      by_cases hm : (a = 4 ∧ b = 20) ∨ (a = 6 ∧ b = 9)
      · have hm420 : a = 4 ∧ b = 20 := by
          rcases hm with h | h
          · exact h
          · rw [h.1, h.2] at hns; simp at hns
        rw [if_neg (by simp [hm])]
        cases hdec : base64Decode rest with
        | none => exact ⟨.err "Could not decode base64 string", rfl, by simp⟩
        | some data =>
          simp only
          rw [if_neg (by simp [hm420.1])]
          rw [rxFeed_crc_error (addBytes_of_full hfull data) hcrc]
          exact ⟨.err "CRC error", rfl, by simp⟩
      · rw [if_pos hm]
        exact ⟨.cont, rfl, by simp⟩

theorem rxRun_stuck {crc16 : List Nat → Nat} {p2 : Packet}
    (hfull : p2.expectedLen ≤ p2.buffer.length) (hcrc : crc16 p2.buffer ≠ 0) :
    ∀ lines : List (List Nat), (∀ l ∈ lines, isStartLine l = false) →
      (rxRun crc16 (some p2) lines).1 = some p2 ∧
      ∀ b, (rxRun crc16 (some p2) lines).2 ≠ RxOut.frame b := by
  intro lines
  induction lines with
  | nil => exact fun _ => ⟨rfl, by simp [rxRun]⟩
  | cons l ls ih =>
    intro hns
    obtain ⟨out, hout, hnf⟩ := rxLine_nonstart hfull hcrc (hns l (by simp))
    unfold rxRun
    rw [hout]
    cases out with
    | cont => exact ih fun x hx => hns x (by simp [hx])
    | err e => exact ⟨rfl, by simp⟩
    | frame b => exact absurd rfl (hnf b)

theorem rxLine_start {crc16 : List Nat → Nat} {line rest drest : List Nat}
    {d1 d2 : Nat} (pkt : Option Packet)
    (hl : stripCR line = 6 :: 9 :: rest)
    (hdec : base64Decode rest = some (d1 :: d2 :: drest)) :
    rxLine crc16 pkt line = rxFeed crc16 (some ⟨d1 * 256 + d2, []⟩) drest := by
  simp [rxLine, hl, hdec]

/-- C8 counterexample: with the constant-1 checksum function, completing a
packet via a continuation line with a nonzero inclusive checksum makes `Rx`
fail with `"CRC error"` — but the reassembly slot still holds the completed
packet (it is NOT reset to a clean state), and a subsequent continuation
line triggers the same checksum error again instead of being ignored as it
would be from a clean (empty) state. -/
theorem c8_reset_counterexample :
    (rxLine (fun _ => 1) (some ⟨4, [1, 2]⟩) ([4, 20] ++ Base64.base64Encode [9, 9])).2 =
      .err "CRC error" ∧
    (rxLine (fun _ => 1) (some ⟨4, [1, 2]⟩) ([4, 20] ++ Base64.base64Encode [9, 9])).1 =
      some ⟨4, [1, 2, 9, 9]⟩ ∧
    (rxLine (fun _ => 1) (some ⟨4, [1, 2]⟩) ([4, 20] ++ Base64.base64Encode [9, 9])).1 ≠
      none ∧
    (rxLine (fun _ => 1) (some ⟨4, [1, 2, 9, 9]⟩) ([4, 20] ++ Base64.base64Encode [9, 9])).2 =
      .err "CRC error" ∧
    (rxLine (fun _ => 1) none ([4, 20] ++ Base64.base64Encode [9, 9])).2 = RxOut.cont := by
  decide

/-- C8 (amended): whenever a reassembled frame completes and the inclusive
16-bit checksum over the accumulated buffer is nonzero, `Rx` fails with a
checksum error and the frame is never delivered — the completed packet stays
in the reassembly slot and can never be returned by later receives (every
line sequence free of start-marker lines leaves the slot unchanged and
yields no frame, re-raising the checksum error on further continuation
lines); only a subsequent start-marker line begins a fresh packet, and it
does so regardless of the stale state, so the next frame is received from a
clean packet. -/
theorem c8_crc_error_discards_frame (crc16 : List Nat → Nat) (p p2 : Packet)
    (data : List Nat) (hadd : p.addBytes data = (p2, true))
    (hcrc : crc16 p2.buffer ≠ 0) :
    rxFeed crc16 (some p) data = (some p2, .err "CRC error") ∧
    (p2.expectedLen ≤ p2.buffer.length →
      ∀ lines : List (List Nat), (∀ l ∈ lines, isStartLine l = false) →
        (rxRun crc16 (some p2) lines).1 = some p2 ∧
        ∀ b, (rxRun crc16 (some p2) lines).2 ≠ RxOut.frame b) ∧
    (∀ (pkt : Option Packet) (line rest drest : List Nat) (d1 d2 : Nat),
      stripCR line = 6 :: 9 :: rest →
      Base64.base64Decode rest = some (d1 :: d2 :: drest) →
      rxLine crc16 pkt line = rxFeed crc16 (some ⟨d1 * 256 + d2, []⟩) drest) :=
  ⟨rxFeed_crc_error hadd hcrc,
    fun hfull lines hns => rxRun_stuck hfull hcrc lines hns,
    fun pkt _ _ _ _ _ hl hdec => rxLine_start pkt hl hdec⟩

/-- C8 amended-claim witness: the concrete failing packet from the
counterexample, a continuation line that cannot deliver it, and a start
line that begins a fresh packet. -/
theorem c8_crc_error_discards_frame_witness :
    (Packet.addBytes ⟨4, [1, 2]⟩ [9, 9] = (⟨4, [1, 2, 9, 9]⟩, true)) ∧
    ((fun _ => 1 : List Nat → Nat) [1, 2, 9, 9] ≠ 0) ∧
    rxFeed (fun _ => 1) (some ⟨4, [1, 2]⟩) [9, 9] =
      (some ⟨4, [1, 2, 9, 9]⟩, .err "CRC error") ∧
    (rxRun (fun _ => 1) (some ⟨4, [1, 2, 9, 9]⟩)
        [[4, 20] ++ Base64.base64Encode [9, 9]]).1 = some ⟨4, [1, 2, 9, 9]⟩ ∧
    rxLine (fun _ => 1) (some ⟨4, [1, 2, 9, 9]⟩) ([6, 9] ++ Base64.base64Encode [0, 2, 5]) =
      rxFeed (fun _ => 1) (some ⟨2, []⟩) [5] := by
  have c := c8_crc_error_discards_frame (fun _ => 1) ⟨4, [1, 2]⟩ ⟨4, [1, 2, 9, 9]⟩ [9, 9]
    (by decide) (by decide)
  refine ⟨by decide, by decide, c.1, ?_, ?_⟩
  · exact (c.2.1 (by decide) [[4, 20] ++ Base64.base64Encode [9, 9]] (by decide)).1
  · have := c.2.2 (some ⟨4, [1, 2, 9, 9]⟩) ([6, 9] ++ Base64.base64Encode [0, 2, 5])
      (Base64.base64Encode [0, 2, 5]) [5] 0 2 (by decide) (by decide)
    simpa using this

end Nmserial

/-! ## Lemmas about the LoRa fragmentation transport -/

namespace MtechLora

theorem lor_flag_bits :
    ∀ k : Fin 128, k.val ||| 128 = k.val + 128 ∧ k.val ||| 0 = k.val := by decide

theorem lor_byte_lt {a b : Nat} (ha : a < 256) (hb : b < 256) : a ||| b < 256 := by
  have h8 : (256 : Nat) = 2 ^ 8 := by norm_num
  rw [h8] at ha hb ⊢
  exact Nat.or_lt_two_pow ha hb

/-- Full characterization of the continuation-fragment loop: the produced
segments are non-empty, their payload slices concatenate back to the input,
and the `j`-th segment carries header byte `(idx + j) % 256` with the
last-fragment flag exactly on the final segment, a full `segSz - 1` payload
slice on every non-final segment and a non-empty slice of at most
`segSz - 1` bytes on the final one. -/
theorem contFrags_spec :
    ∀ {fuel segSz idx : Nat} {rem : List Nat}, 2 ≤ segSz → rem ≠ [] →
      rem.length ≤ fuel →
      ∃ segs : List (List Nat),
        contFragsAux fuel segSz idx rem = segs ∧
        segs ≠ [] ∧
        (segs.map (fun s => s.drop 1)).flatten = rem ∧
        (∀ j (hj : j < segs.length),
          ∃ sl : List Nat, sl ≠ [] ∧ sl.length ≤ segSz - 1 ∧
            segs.get ⟨j, hj⟩ =
              ((idx + j) % 256 ||| (if j = segs.length - 1 then 128 else 0)) :: sl ∧
            (j ≠ segs.length - 1 → sl.length = segSz - 1)) := by
  intro fuel
  induction fuel with
  | zero =>
    intro segSz idx rem hS hne h1
    cases rem with
    | nil => exact absurd rfl hne
    | cons r rs => simp at h1
  | succ f ih =>
    intro segSz idx rem hS hne h1
    cases rem with
    | nil => exact absurd rfl hne
    | cons r rs =>
      simp only [contFragsAux]
      unfold COAP_LORA_LAST_FRAG
      rw [if_neg (by omega)]
      by_cases hlast : (r :: rs).length ≤ segSz - 1
      · rw [if_pos hlast, if_pos hlast]
        have hdropnil : (r :: rs).drop (r :: rs).length = [] := by
          simp
        rw [hdropnil]
        refine ⟨[fragHdr (idx % 256 ||| 128) ++ (r :: rs).take (r :: rs).length], ?_, by simp,
          ?_, ?_⟩
        · cases f <;> rfl
        · simp [fragHdr]
        · intro j hj
          simp only [List.length_singleton] at hj
          have hj0 : j = 0 := by omega
          subst hj0
          refine ⟨r :: rs, by simp, hlast, ?_, by simp⟩
          simp only [fragHdr, List.get, List.singleton_append, Nat.add_zero, if_pos rfl]
          have hlt : idx % 256 ||| 128 < 256 := lor_byte_lt (by omega) (by omega)
          simp [Nat.mod_eq_of_lt hlt]
      · rw [if_neg hlast, if_neg hlast]
        have hlast2 : segSz - 1 < rs.length + 1 := by
          simp only [List.length_cons] at hlast
          omega
        have hlen : (r :: rs).length ≤ f + 1 := h1
        have hrem2 : ((r :: rs).drop (segSz - 1)).length = (r :: rs).length - (segSz - 1) := by
          simp
        have hne2 : (r :: rs).drop (segSz - 1) ≠ [] := by
          intro hc
          rw [← List.length_eq_zero] at hc
          omega
        obtain ⟨segs2, heq2, hne2s, hflat2, hget2⟩ :=
          @ih segSz (idx + 1) ((r :: rs).drop (segSz - 1))
            hS hne2 (by simp at hlen ⊢; omega)
        rw [heq2]
        refine ⟨(fragHdr (idx % 256 ||| 0) ++ (r :: rs).take (segSz - 1)) :: segs2, rfl,
          by simp, ?_, ?_⟩
        · simp only [List.map_cons, List.flatten_cons, hflat2, fragHdr,
            List.singleton_append, List.drop_succ_cons, List.drop_zero]
          exact List.take_append_drop (segSz - 1) (r :: rs)
        · intro j hj
          obtain ⟨n2, hn2⟩ : ∃ n2, segs2.length = n2 + 1 := by
            cases hs : segs2 with
            | nil => exact absurd hs hne2s
            | cons x xs => exact ⟨xs.length, by simp⟩
          cases j with
          | zero =>
            refine ⟨(r :: rs).take (segSz - 1), ?_, ?_, ?_, ?_⟩
            · have : ((r :: rs).take (segSz - 1)).length = segSz - 1 := by
                simp; omega
              intro hc
              rw [hc] at this
              simp at this
              omega
            · simp
            · have hnl : ¬(0 = ((fragHdr (idx % 256 ||| 0) ++ (r :: rs).take (segSz - 1)) ::
                  segs2).length - 1) := by
                simp [hn2]
              rw [if_neg hnl]
              simp [fragHdr]
            · intro _
              simp
              omega
          | succ j =>
            have hj2 : j < segs2.length := by
              simp at hj
              omega
            obtain ⟨sl, hsl1, hsl2, hsl3, hsl4⟩ := hget2 j hj2
            refine ⟨sl, hsl1, hsl2, ?_, ?_⟩
            · show segs2.get ⟨j, hj2⟩ = _
              rw [hsl3]
              have ha : idx + 1 + j = idx + (j + 1) := by omega
              rw [ha]
              by_cases hj3 : j = segs2.length - 1
              · rw [if_pos hj3, if_pos (by simp only [List.length_cons]; omega)]
              · rw [if_neg hj3, if_neg (by simp only [List.length_cons]; omega)]
            · intro hne3
              refine hsl4 ?_
              simp only [List.length_cons] at hne3
              omega


/-- C9: for a non-empty payload `b` and segment size `segSz ≥ 5`,
`sendFragments` emits a first segment carrying the 4-byte start header
(fragment number 0 with the last-fragment flag if and only if the whole
payload fits, plus the 16-bit checksum of the whole payload) and
`min (segSz-4) |b|` payload bytes; every later segment carries a 1-byte
header whose fragment number is its position (increasing by exactly 1),
a full `segSz - 1` payload bytes on every non-final segment and a non-empty
remainder on the final one; concatenating the payload slices in order
reproduces `b` exactly; and (for fewer than 129 segments, where bit 7 is
unambiguous) the last emitted segment and only it has the last-fragment
flag set. -/
theorem c9_lora_fragmentation (crc16 : List Nat → Nat) (segSz : Nat) (b : List Nat)
    (hb : b ≠ []) (hS : 5 ≤ segSz) :
    ∃ seg0 rest,
      sendFragments crc16 segSz b = seg0 :: rest ∧
      seg0 = fragStartHdr (if b.length ≤ segSz - 4 then 128 else 0) (crc16 b) ++
        b.take (min (segSz - 4) b.length) ∧
      seg0.length = 4 + min (segSz - 4) b.length ∧
      (b.length ≤ segSz - 4 → rest = []) ∧
      seg0.drop 4 ++ (rest.map (fun s => s.drop 1)).flatten = b ∧
      (∀ j (hj : j < rest.length),
        ∃ sl : List Nat, sl ≠ [] ∧ sl.length ≤ segSz - 1 ∧
          rest.get ⟨j, hj⟩ =
            ((1 + j) % 256 ||| (if j = rest.length - 1 then 128 else 0)) :: sl ∧
          (j ≠ rest.length - 1 → sl.length = segSz - 1)) ∧
      ((seg0 :: rest).length ≤ 128 →
        ∀ i (hi : i < (seg0 :: rest).length),
          (128 ≤ ((seg0 :: rest).get ⟨i, hi⟩).headD 0 ↔ i = (seg0 :: rest).length - 1)) := by
  unfold sendFragments COAP_LORA_LAST_FRAG
  rw [if_neg hb]
  by_cases hlast : b.length ≤ segSz - 4
  · rw [if_pos hlast, if_pos hlast]
    have hdrop : b.drop b.length = [] := List.drop_length b
    rw [hdrop]
    have hcont : contFrags segSz 1 [] = [] := rfl
    rw [hcont]
    have hmin : min (segSz - 4) b.length = b.length := by omega
    have htake : b.take b.length = b := List.take_length b
    refine ⟨_, [], rfl, by rw [hmin, htake], ?_, fun _ => rfl, ?_, ?_, ?_⟩
    · rw [hmin]
      simp [fragStartHdr]
      omega
    · simp only [List.map_nil, List.flatten_nil, List.append_nil, htake]
      have h4 : (fragStartHdr 128 (crc16 b)).length = 4 := rfl
      rw [← h4, List.drop_left]
    · intro j hj
      simp at hj
    · intro hcount i hi
      simp only [List.length_cons, List.length_nil] at hi
      have hi0 : i = 0 := by omega
      subst hi0
      simp [fragStartHdr]
  · rw [if_neg hlast, if_neg hlast]
    have hlt : segSz - 4 < b.length := by omega
    have hne2 : b.drop (segSz - 4) ≠ [] := by
      intro hc
      rw [← List.length_eq_zero] at hc
      simp at hc
      omega
    obtain ⟨segs2, heq2, hne2s, hflat2, hget2⟩ :=
      @contFrags_spec ((b.drop (segSz - 4)).length) segSz 1
        (b.drop (segSz - 4)) (by omega) hne2 (Nat.le_refl _)
    have hcont : contFrags segSz 1 (b.drop (segSz - 4)) = segs2 := heq2
    rw [hcont]
    have hmin : min (segSz - 4) b.length = segSz - 4 := by omega
    obtain ⟨n2, hn2⟩ : ∃ n2, segs2.length = n2 + 1 := by
      cases hs : segs2 with
      | nil => exact absurd hs hne2s
      | cons x xs => exact ⟨xs.length, by simp⟩
    refine ⟨_, segs2, rfl, by rw [hmin], ?_, ?_, ?_, ?_, ?_⟩
    · rw [hmin]
      simp [fragStartHdr]
      omega
    · intro hc
      exact absurd hc hlast
    · rw [hflat2]
      have h4 : (fragStartHdr 0 (crc16 b)).length = 4 := rfl
      rw [← h4, List.drop_left, List.take_append_drop]
    · intro j hj
      exact hget2 j hj
    · intro hcount i hi
      simp only [List.length_cons] at hcount hi
      cases i with
      | zero =>
        constructor
        · intro habs
          simp [fragStartHdr] at habs
        · intro habs
          simp only [List.length_cons] at habs
          omega
      | succ j =>
        have hj2 : j < segs2.length := by omega
        obtain ⟨sl, hsl1, hsl2, hsl3, hsl4⟩ := hget2 j hj2
        have hget : ((fragStartHdr 0 (crc16 b) ++ b.take (segSz - 4)) :: segs2).get
            ⟨j + 1, hi⟩ = segs2.get ⟨j, hj2⟩ := rfl
        rw [hget, hsl3]
        have hjle : 1 + j < 128 := by omega
        have hmod : (1 + j) % 256 = 1 + j := by omega
        rw [hmod]
        by_cases hj3 : j = segs2.length - 1
        · rw [if_pos hj3]
          have hflag := (lor_flag_bits ⟨1 + j, hjle⟩).1
          simp only at hflag
          simp only [List.headD_cons, hflag]
          constructor
          · intro _
            simp only [List.length_cons]
            omega
          · intro _
            omega
        · rw [if_neg hj3]
          have hflag := (lor_flag_bits ⟨1 + j, hjle⟩).2
          simp only at hflag
          simp only [List.headD_cons, hflag]
          constructor
          · intro habs
            omega
          · intro habs
            simp only [List.length_cons] at habs
            omega

/-- C9 witness: 10 payload bytes at segment size 8 and checksum 513 split
into a first segment `[0, 0, 1, 2]` header plus 4 payload bytes and one
final continuation segment with header byte `1 ||| 128 = 129` and the 6
remaining bytes. -/
theorem c9_lora_fragmentation_witness :
    ([0, 1, 2, 3, 4, 5, 6, 7, 8, 9] : List Nat) ≠ [] ∧ 5 ≤ 8 ∧
    (∃ seg0 rest,
      sendFragments (fun _ => 513) 8 [0, 1, 2, 3, 4, 5, 6, 7, 8, 9] = seg0 :: rest ∧
      seg0 = fragStartHdr (if ([0, 1, 2, 3, 4, 5, 6, 7, 8, 9] : List Nat).length ≤ 8 - 4
          then 128 else 0) ((fun _ => 513 : List Nat → Nat) [0, 1, 2, 3, 4, 5, 6, 7, 8, 9]) ++
        ([0, 1, 2, 3, 4, 5, 6, 7, 8, 9] : List Nat).take
          (min (8 - 4) ([0, 1, 2, 3, 4, 5, 6, 7, 8, 9] : List Nat).length) ∧
      seg0.length = 4 + min (8 - 4) ([0, 1, 2, 3, 4, 5, 6, 7, 8, 9] : List Nat).length ∧
      (([0, 1, 2, 3, 4, 5, 6, 7, 8, 9] : List Nat).length ≤ 8 - 4 → rest = []) ∧
      seg0.drop 4 ++ (rest.map (fun s => s.drop 1)).flatten = [0, 1, 2, 3, 4, 5, 6, 7, 8, 9] ∧
      (∀ j (hj : j < rest.length),
        ∃ sl : List Nat, sl ≠ [] ∧ sl.length ≤ 8 - 1 ∧
          rest.get ⟨j, hj⟩ =
            ((1 + j) % 256 ||| (if j = rest.length - 1 then 128 else 0)) :: sl ∧
          (j ≠ rest.length - 1 → sl.length = 8 - 1)) ∧
      ((seg0 :: rest).length ≤ 128 →
        ∀ i (hi : i < (seg0 :: rest).length),
          (128 ≤ ((seg0 :: rest).get ⟨i, hi⟩).headD 0 ↔ i = (seg0 :: rest).length - 1))) :=
  ⟨by decide, by decide,
    c9_lora_fragmentation (fun _ => 513) 8 [0, 1, 2, 3, 4, 5, 6, 7, 8, 9] (by decide) (by decide)⟩

end MtechLora
